import Mathlib

/-!
Verification of `tools/wheelmaker.py` (rules_python wheel builder).

The Python source is shallowly embedded below: pure helper functions become
Lean functions over `String` / `List Char` / `List Nat` (bytes), the stateful
`_WhlFile` archive writer becomes explicit state passing over a `WhlFile`
structure, and code that can raise becomes `Option`-valued.  The external
`packaging.version.Version` class (a third-party library imported by
`normalize_pep440`) is modelled by an executable PEP 440 parser and
canonical renderer, faithful to the published version specification the
library implements.  All definitions are executable.
-/

namespace Wheelmaker

/-! ## Decimal digit rendering and parsing

`str(n)` / `int(s)` for natural numbers, used both by the PEP 440 model
(release segments, pre/post/dev numbers, numeric local segments) and by the
RECORD serializer (sizes are serialized with `str(size)`).
-/

def digitChar : Nat → Char
  | 0 => '0'
  | 1 => '1'
  | 2 => '2'
  | 3 => '3'
  | 4 => '4'
  | 5 => '5'
  | 6 => '6'
  | 7 => '7'
  | 8 => '8'
  | _ => '9'

/-- Big-endian decimal digits, fuel-stepped (the fuel `n` always suffices:
each step divides by 10). -/
def natDigitsAux : Nat → Nat → List Char
  | 0, n => [digitChar n]
  | fuel + 1, n =>
    if n < 10 then [digitChar n]
    else natDigitsAux fuel (n / 10) ++ [digitChar (n % 10)]

/-- Big-endian decimal digits of `n`, exactly Python's `str(n)`. -/
def natDigits (n : Nat) : List Char :=
  natDigitsAux n n

/-- Python's `str(n)` as a Lean string. -/
def natStr (n : Nat) : String :=
  ⟨natDigits n⟩

/-- Numeric value of a digit string, Python's `int(s)` for digit-only `s`. -/
def digitsVal (l : List Char) : Nat :=
  l.foldl (fun a c => 10 * a + (c.toNat - 48)) 0

theorem digitChar_toNat {d : Nat} (h : d < 10) : (digitChar d).toNat - 48 = d := by
  interval_cases d <;> decide

theorem digitChar_isDigit {d : Nat} (h : d < 10) : (digitChar d).isDigit = true := by
  interval_cases d <;> decide

theorem digitsVal_append_one (l : List Char) (c : Char) :
    digitsVal (l ++ [c]) = 10 * digitsVal l + (c.toNat - 48) := by
  simp [digitsVal, List.foldl_append]

theorem digitChar_isDigit_any (d : Nat) : (digitChar d).isDigit = true := by
  unfold digitChar
  split <;> decide

theorem natDigitsAux_ne_nil (fuel n : Nat) : natDigitsAux fuel n ≠ [] := by
  cases fuel with
  | zero => simp [natDigitsAux]
  | succ f =>
    rw [natDigitsAux]
    split
    · simp
    · simp

theorem natDigits_ne_nil (n : Nat) : natDigits n ≠ [] :=
  natDigitsAux_ne_nil n n

theorem natDigitsAux_isDigit (fuel : Nat) :
    ∀ n, ∀ c ∈ natDigitsAux fuel n, c.isDigit = true := by
  induction fuel with
  | zero =>
    intro n c hc
    simp only [natDigitsAux, List.mem_singleton] at hc
    subst hc
    exact digitChar_isDigit_any n
  | succ f ih =>
    intro n c hc
    rw [natDigitsAux] at hc
    split at hc
    · simp only [List.mem_singleton] at hc
      subst hc
      exact digitChar_isDigit_any n
    · rcases List.mem_append.mp hc with hc | hc
      · exact ih (n / 10) c hc
      · simp only [List.mem_singleton] at hc
        subst hc
        exact digitChar_isDigit_any (n % 10)

theorem natDigits_isDigit (n : Nat) : ∀ c ∈ natDigits n, c.isDigit = true :=
  natDigitsAux_isDigit n n

theorem digitsVal_natDigitsAux (fuel : Nat) :
    ∀ n, n ≤ fuel → digitsVal (natDigitsAux fuel n) = n := by
  induction fuel with
  | zero =>
    intro n hn
    have h0 : n = 0 := by omega
    subst h0
    decide
  | succ f ih =>
    intro n hn
    rw [natDigitsAux]
    split
    · next h =>
      simp [digitsVal]
      exact digitChar_toNat h
    · next h =>
      rw [digitsVal_append_one, ih (n / 10) (by omega),
        digitChar_toNat (Nat.mod_lt _ (by omega))]
      omega

theorem digitsVal_natDigits (n : Nat) : digitsVal (natDigits n) = n :=
  digitsVal_natDigitsAux n n (Nat.le_refl n)

/-! ## takeWhile / dropWhile scanning lemmas -/

/-- The first character of `ys` (if any) does not satisfy `p`. -/
def HeadNot (p : Char → Bool) (ys : List Char) : Prop :=
  ∀ c, ys.head? = some c → p c = false

theorem headNot_nil (p : Char → Bool) : HeadNot p [] := by
  intro c hc
  simp at hc

theorem headNot_cons {p : Char → Bool} {c : Char} (h : p c = false) (ys : List Char) :
    HeadNot p (c :: ys) := by
  intro d hd
  simp at hd
  subst hd
  exact h

theorem takeWhile_eq_nil_of_headNot {p : Char → Bool} {ys : List Char}
    (h : HeadNot p ys) : List.takeWhile p ys = [] := by
  cases ys with
  | nil => rfl
  | cons a l =>
    rw [List.takeWhile_cons]
    simp [h a rfl]

theorem dropWhile_eq_self_of_headNot {p : Char → Bool} {ys : List Char}
    (h : HeadNot p ys) : List.dropWhile p ys = ys := by
  cases ys with
  | nil => rfl
  | cons a l =>
    rw [List.dropWhile_cons]
    simp [h a rfl]

theorem takeWhile_append_all {p : Char → Bool} {xs ys : List Char}
    (h : ∀ c ∈ xs, p c = true) :
    List.takeWhile p (xs ++ ys) = xs ++ List.takeWhile p ys := by
  induction xs with
  | nil => simp
  | cons a l ih =>
    have ha : p a = true := h a (by simp)
    simp only [List.cons_append, List.takeWhile_cons, ha]
    simp [ih fun c hc => h c (by simp [hc])]

theorem dropWhile_append_all {p : Char → Bool} {xs ys : List Char}
    (h : ∀ c ∈ xs, p c = true) :
    List.dropWhile p (xs ++ ys) = List.dropWhile p ys := by
  induction xs with
  | nil => simp
  | cons a l ih =>
    have ha : p a = true := h a (by simp)
    simp only [List.cons_append, List.dropWhile_cons, ha]
    simp [ih fun c hc => h c (by simp [hc])]

theorem dropWhile_head_not (p : Char → Bool) (ys : List Char) :
    HeadNot p (List.dropWhile p ys) := by
  induction ys with
  | nil => exact headNot_nil p
  | cons a l ih =>
    rw [List.dropWhile_cons]
    split
    · exact ih
    · next h =>
      exact headNot_cons (by simpa using h) l

/-! ## PEP 440 version model

Modelled from the spec: `normalize_pep440` calls the external
`packaging.version.Version` class, which is not part of this repository.
The definitions below embed that class per the PEP 440 public version
specification it implements: a version string is matched (case-insensitively,
after stripping surrounding whitespace and an optional leading `v`) against
`[N!]N(.N)*[{a|b|rc}N][.postN][.devN][+local]` with the documented
alternative spellings and optional `-`/`_`/`.` separators, and its canonical
string form is re-rendered from the parsed, normalized components.
Character classes are modelled at ASCII granularity.
-/

/-- Normalized pre-release letter: `alpha`/`a` ↦ `a`, `beta`/`b` ↦ `b`,
`c`/`pre`/`preview`/`rc` ↦ `rc`. -/
inductive PreL where
  | a
  | b
  | rc
deriving DecidableEq, Repr

/-- One `+`-local-version segment: numeric segments are compared and rendered
as integers, the rest as lowercase alphanumeric strings. -/
inductive LocalSeg where
  | num (n : Nat)
  | str (s : List Char)
deriving DecidableEq, Repr

/-- Parsed, normalized PEP 440 version (the state of a
`packaging.version.Version` object). -/
structure PVersion where
  epoch : Nat
  release : List Nat
  pre : Option (PreL × Nat)
  post : Option Nat
  dev : Option Nat
  localSegs : Option (List LocalSeg)
deriving DecidableEq, Repr

/-- The optional separator class `[-_\.]?`. -/
def isSepChar (c : Char) : Bool :=
  c = '-' || c = '_' || c = '.'

/-- The local-version character class `[a-z0-9]` (on the lowercased input). -/
def isLocalChar (c : Char) : Bool :=
  ('a' ≤ c && c ≤ 'z') || c.isDigit

/-- Parse a nonempty run of decimal digits (`[0-9]+`), greedily. -/
def parseNum (cs : List Char) : Option (Nat × List Char) :=
  let ds := cs.takeWhile Char.isDigit
  if ds.isEmpty then none
  else some (digitsVal ds, cs.dropWhile Char.isDigit)

/-- Optionally consume one separator character (`[-_\.]?`, greedy). -/
def parseSep : List Char → List Char
  | [] => []
  | c :: cs => if isSepChar c then cs else c :: cs

/-- Try literal alternatives in order; on a match, consume it. -/
def parseAlts {α : Type} : List (List Char × α) → List Char → Option (α × List Char)
  | [], _ => none
  | (pat, v) :: rest, cs =>
    if pat.isPrefixOf cs then some (v, cs.drop pat.length)
    else parseAlts rest cs

/-- A letter group `[-_\.]?(letters)[-_\.]?([0-9]+)?` with a default number
of 0, restoring the input when no letter matches. -/
def parseLetterNum {α : Type} (alts : List (List Char × α)) (cs : List Char) :
    Option (α × Nat) × List Char :=
  let cs1 := parseSep cs
  match parseAlts alts cs1 with
  | none => (none, cs)
  | some (l, cs2) =>
    let cs3 := parseSep cs2
    match parseNum cs3 with
    | some (n, cs4) => (some (l, n), cs4)
    | none => (some (l, 0), cs3)

/-- Pre-release spellings, longest overlapping alternative first, each mapped
to its normalized letter. -/
def preAlts : List (List Char × PreL) :=
  [("alpha".data, .a), ("preview".data, .rc), ("beta".data, .b),
   ("pre".data, .rc), ("rc".data, .rc),
   ("a".data, .a), ("b".data, .b), ("c".data, .rc)]

def parsePreGroup (cs : List Char) : Option (PreL × Nat) × List Char :=
  parseLetterNum preAlts cs

/-- Post-release spellings `post|rev|r` (normalized to `post`). -/
def postAlts : List (List Char × Unit) :=
  [("post".data, ()), ("rev".data, ()), ("r".data, ())]

/-- The post group: either `-N` or `[-_\.]?(post|rev|r)[-_\.]?N?`. -/
def parsePostGroup (cs : List Char) : Option Nat × List Char :=
  let fallback :=
    match parseLetterNum postAlts cs with
    | (some (_, n), r) => (some n, r)
    | (none, r) => (none, r)
  match cs with
  | '-' :: rest =>
    match parseNum rest with
    | some (n, r) => (some n, r)
    | none => fallback
  | _ => fallback

def devAlts : List (List Char × Unit) :=
  [("dev".data, ())]

def parseDevGroup (cs : List Char) : Option Nat × List Char :=
  match parseLetterNum devAlts cs with
  | (some (_, n), r) => (some n, r)
  | (none, r) => (none, r)

/-- `(.N)*`: further release components, stopping before a dot that is not
followed by a digit. -/
def parseDotNums : Nat → List Char → List Nat × List Char
  | 0, cs => ([], cs)
  | f + 1, cs =>
    match cs with
    | '.' :: rest =>
      match parseNum rest with
      | some (n, r) =>
        let p := parseDotNums f r
        (n :: p.1, p.2)
      | none => ([], cs)
    | _ => ([], cs)

/-- Classify one local segment: all-digit runs become integers. -/
def localSeg (run : List Char) : LocalSeg :=
  if run.all Char.isDigit then .num (digitsVal run) else .str run

/-- `[a-z0-9]+([-_\.][a-z0-9]+)*`, stopping before a separator that is not
followed by an alphanumeric run. -/
def parseLocalSegs : Nat → List Char → Option (List LocalSeg × List Char)
  | 0, cs =>
    if (cs.takeWhile isLocalChar).isEmpty then none
    else some ([localSeg (cs.takeWhile isLocalChar)], cs.dropWhile isLocalChar)
  | f + 1, cs =>
    if (cs.takeWhile isLocalChar).isEmpty then none
    else
      match cs.dropWhile isLocalChar with
      | s :: rest' =>
        if isSepChar s then
          match parseLocalSegs f rest' with
          | some (segs, r) => some (localSeg (cs.takeWhile isLocalChar) :: segs, r)
          | none => some ([localSeg (cs.takeWhile isLocalChar)], s :: rest')
        else some ([localSeg (cs.takeWhile isLocalChar)], s :: rest')
      | [] => some ([localSeg (cs.takeWhile isLocalChar)], [])

/-- `(\+local)?`, restoring the input (including the `+`) when the local part
is malformed. -/
def parseLocalGroup (cs : List Char) : Option (List LocalSeg) × List Char :=
  match cs with
  | '+' :: rest =>
    match parseLocalSegs rest.length rest with
    | some (segs, r) => (some segs, r)
    | none => (none, cs)
  | _ => (none, cs)

/-- `([0-9]+!)?`, restoring the input when the digits are not followed by
an exclamation mark. -/
def parseEpoch (cs : List Char) : Nat × List Char :=
  match parseNum cs with
  | some (n, '!' :: r) => (n, r)
  | _ => (0, cs)

/-- The pattern's optional leading `v?`. -/
def vStrip : List Char → List Char
  | 'v' :: rest => rest
  | cs => cs

/-- The anchored version pattern over a lowercased, whitespace-free
character list. -/
def parseCore (cs : List Char) : Option PVersion :=
  let cs0 := vStrip cs
  let ec := parseEpoch cs0
  match parseNum ec.2 with
  | none => none
  | some (r0, cs1) =>
    let rp := parseDotNums cs1.length cs1
    let pp := parsePreGroup rp.2
    let pop := parsePostGroup pp.2
    let dp := parseDevGroup pop.2
    let lp := parseLocalGroup dp.2
    if lp.2.isEmpty then
      some ⟨ec.1, r0 :: rp.1, pp.1, pop.1, dp.1, lp.1⟩
    else none

/-- Python's `\s` class (ASCII). -/
def isPySpace (c : Char) : Bool :=
  c = ' ' || c = '\t' || c = '\n' || c = '\r' || c = '\x0b' || c = '\x0c'

def wsStrip (cs : List Char) : List Char :=
  ((cs.dropWhile isPySpace).reverse.dropWhile isPySpace).reverse

def asciiLowerAll (cs : List Char) : List Char :=
  cs.map Char.toLower

/-- `packaging.version.Version(s)`: `none` means `InvalidVersion` is raised. -/
def pep440Parse (s : String) : Option PVersion :=
  parseCore (asciiLowerAll (wsStrip s.data))

/-! ### Canonical rendering (`str(Version(...))`) -/

def preLChars : PreL → List Char
  | .a => ['a']
  | .b => ['b']
  | .rc => ['r', 'c']

def renderSeg : LocalSeg → List Char
  | .num n => natDigits n
  | .str s => s

def renderSegs : List LocalSeg → List Char
  | [] => []
  | [s] => renderSeg s
  | s :: rest => renderSeg s ++ '.' :: renderSegs rest

def renderDots : List Nat → List Char
  | [] => []
  | n :: rest => '.' :: (natDigits n ++ renderDots rest)

def renderRelease : List Nat → List Char
  | [] => []
  | n :: rest => natDigits n ++ renderDots rest

def renderPre : Option (PreL × Nat) → List Char
  | none => []
  | some (l, n) => preLChars l ++ natDigits n

def renderPost : Option Nat → List Char
  | none => []
  | some n => '.' :: 'p' :: 'o' :: 's' :: 't' :: natDigits n

def renderDev : Option Nat → List Char
  | none => []
  | some n => '.' :: 'd' :: 'e' :: 'v' :: natDigits n

def renderLocal : Option (List LocalSeg) → List Char
  | none => []
  | some segs => '+' :: renderSegs segs

def renderEpoch (e : Nat) : List Char :=
  if e = 0 then [] else natDigits e ++ ['!']

def render (w : PVersion) : List Char :=
  renderEpoch w.epoch ++ renderRelease w.release ++ renderPre w.pre ++
    renderPost w.post ++ renderDev w.dev ++ renderLocal w.localSegs

def renderStr (w : PVersion) : String :=
  ⟨render w⟩

/-! ### `normalize_pep440` and its helpers (wheelmaker.py lines 64-95) -/

/-- Python's `\w` class (ASCII granularity). -/
def isWordChar (c : Char) : Bool :=
  c.isAlphanum || c = '_'

/-- One rewrite pass of `re.sub(r"[^a-z0-9]+", ".", ...)`: every maximal run
of characters outside `[a-z0-9]` becomes a single dot. -/
def collapseDots : List Char → List Char
  | [] => []
  | c :: cs =>
    if isLocalChar c then c :: collapseDots cs
    else
      match collapseDots cs with
      | '.' :: tl => '.' :: tl
      | t => '.' :: t

/-- Remove a trailing run of dots (the right half of Python's
`.strip(".")`). -/
def stripDotsRight : List Char → List Char
  | [] => []
  | c :: cs =>
    if c = '.' then
      match stripDotsRight cs with
      | [] => []
      | x :: xs => '.' :: x :: xs
    else c :: stripDotsRight cs

/-- Python's `.strip(".")`. -/
def stripDots (cs : List Char) : List Char :=
  stripDotsRight (cs.dropWhile (· = '.'))

/-- `re.sub(r"[^a-z0-9]+", ".", version.lower()).strip(".")`
(wheelmaker.py line 89). -/
def sanitize (s : String) : String :=
  ⟨stripDots (collapseDots (asciiLowerAll s.data))⟩

/-- `re.sub(r"\{\w+\}", "0", version)` (wheelmaker.py line 90), with
explicit fuel (each step consumes at least one character). -/
def substAux : Nat → List Char → List Char
  | 0, cs => cs
  | _ + 1, [] => []
  | f + 1, '{' :: rest =>
    let w := rest.takeWhile isWordChar
    if w.isEmpty then '{' :: substAux f rest
    else
      match rest.dropWhile isWordChar with
      | '}' :: rest' => '0' :: substAux f rest'
      | _ => '{' :: substAux f rest
  | f + 1, c :: rest => c :: substAux f rest

def substPlaceholders (cs : List Char) : List Char :=
  substAux cs.length cs

/-- `normalize_pep440` (wheelmaker.py lines 64-95).  `none` models the
uncaught `InvalidVersion` escaping from the final fallback. -/
def normalize_pep440 (version : String) : Option String :=
  match pep440Parse version with
  | some w => some (renderStr w)
  | none =>
    let sanitized := sanitize version
    let substituted : String := ⟨substPlaceholders version.data⟩
    let delim : String := if substituted.data.contains '+' then "." else "+"
    match pep440Parse (substituted ++ delim ++ sanitized) with
    | some w => some (renderStr w)
    | none =>
      match pep440Parse ("0+" ++ sanitized) with
      | some w => some (renderStr w)
      | none => none

/-! ### Well-formedness of parsed versions

Exactly the invariants the parser establishes; they are what makes the
canonical rendering re-parse to the same value.
-/

def SegWf : LocalSeg → Prop
  | .num _ => True
  | .str s => s ≠ [] ∧ (∀ c ∈ s, isLocalChar c = true) ∧ ¬s.all Char.isDigit = true

def LocalWf : Option (List LocalSeg) → Prop
  | none => True
  | some segs => segs ≠ [] ∧ ∀ sg ∈ segs, SegWf sg

def PVersion.Wf (w : PVersion) : Prop :=
  w.release ≠ [] ∧ LocalWf w.localSegs

/-! ### Parser consumption and restoration lemmas -/

theorem parseNum_render {n : Nat} {rest : List Char} (h : HeadNot Char.isDigit rest) :
    parseNum (natDigits n ++ rest) = some (n, rest) := by
  have ht : List.takeWhile Char.isDigit (natDigits n ++ rest) = natDigits n := by
    rw [takeWhile_append_all (natDigits_isDigit n), takeWhile_eq_nil_of_headNot h,
      List.append_nil]
  have hd : List.dropWhile Char.isDigit (natDigits n ++ rest) = rest := by
    rw [dropWhile_append_all (natDigits_isDigit n), dropWhile_eq_self_of_headNot h]
  simp only [parseNum, ht, hd, List.isEmpty_eq_true]
  simp [natDigits_ne_nil n, digitsVal_natDigits n]

theorem parseNum_none {cs : List Char} (h : HeadNot Char.isDigit cs) :
    parseNum cs = none := by
  simp [parseNum, takeWhile_eq_nil_of_headNot h]

theorem parseSep_skip {cs : List Char} (h : HeadNot isSepChar cs) :
    parseSep cs = cs := by
  cases cs with
  | nil => rfl
  | cons a l => simp [parseSep, h a rfl]

theorem isSepChar_false_of_isDigit {c : Char} (h : c.isDigit = true) :
    isSepChar c = false := by
  cases hb : isSepChar c with
  | false => rfl
  | true =>
    exfalso
    simp only [isSepChar, Bool.or_eq_true, decide_eq_true_eq] at hb
    rcases hb with (h1 | h1) | h1 <;> subst h1 <;> exact absurd h (by decide)

theorem headNot_append_of_ne_nil {p : Char → Bool} {xs : List Char} (ys : List Char)
    (h : HeadNot p xs) (hne : xs ≠ []) : HeadNot p (xs ++ ys) := by
  cases xs with
  | nil => exact absurd rfl hne
  | cons a l =>
    intro c hc
    simp at hc
    subst hc
    exact h a rfl

theorem headNot_digits_sep (n : Nat) (rest : List Char) :
    HeadNot isSepChar (natDigits n ++ rest) := by
  have hne := natDigits_ne_nil n
  refine headNot_append_of_ne_nil rest ?_ hne
  intro c hc
  cases hd : natDigits n with
  | nil => exact absurd hd hne
  | cons d t =>
    have hdig : d.isDigit = true := natDigits_isDigit n d (by rw [hd]; simp)
    rw [hd] at hc
    simp only [List.head?_cons, Option.some.injEq] at hc
    rw [← hc]
    exact isSepChar_false_of_isDigit hdig

theorem parseEpoch_render {e : Nat} {rest : List Char} :
    parseEpoch (natDigits e ++ '!' :: rest) = (e, rest) := by
  have h : parseNum (natDigits e ++ '!' :: rest) = some (e, '!' :: rest) :=
    parseNum_render (headNot_cons (by decide) rest)
  simp [parseEpoch, h]

theorem parseEpoch_skip {cs : List Char}
    (h : ∀ n r, parseNum cs = some (n, r) → r.head? ≠ some '!') :
    parseEpoch cs = (0, cs) := by
  unfold parseEpoch
  split
  · rename_i n r hp
    exact absurd rfl (h n ('!' :: r) hp)
  · rfl

theorem parseDotNums_stop {fuel : Nat} {cs : List Char}
    (h : ∀ r, cs ≠ '.' :: r) : parseDotNums fuel cs = ([], cs) := by
  cases fuel with
  | zero => rfl
  | succ f =>
    unfold parseDotNums
    split
    · rename_i r
      exact absurd rfl (h r)
    · rfl

/-- A dot at the head of `cs` is not followed by a digit. -/
def NoDotDigit (cs : List Char) : Prop :=
  ∀ c r, cs = '.' :: c :: r → c.isDigit = false

theorem parseDotNums_none {fuel : Nat} {cs : List Char}
    (h1 : NoDotDigit cs) : parseDotNums fuel cs = ([], cs) := by
  cases fuel with
  | zero => rfl
  | succ f =>
    unfold parseDotNums
    split
    · rename_i rest
      have hp : parseNum rest = none := by
        refine parseNum_none ?_
        intro c hc
        cases rest with
        | nil => simp at hc
        | cons b r =>
          simp only [List.head?_cons, Option.some.injEq] at hc
          rw [← hc]
          exact h1 b r rfl
      simp [hp]
    · rfl

theorem renderDots_length (ns : List Nat) : ns.length ≤ (renderDots ns).length := by
  induction ns with
  | nil => simp [renderDots]
  | cons n t ih =>
    have := natDigits_ne_nil n
    have h1 : 1 ≤ (natDigits n).length := by
      cases hd : natDigits n with
      | nil => exact absurd hd this
      | cons a l => simp
    simp only [renderDots, List.length_cons, List.length_append]
    omega

theorem headNot_digit_renderDots {ns : List Nat} {rest : List Char}
    (h : HeadNot Char.isDigit rest) :
    HeadNot Char.isDigit (renderDots ns ++ rest) := by
  cases ns with
  | nil => simpa [renderDots] using h
  | cons n t =>
    simp only [renderDots, List.cons_append]
    exact headNot_cons (by decide) _

theorem parseDotNums_render {ns : List Nat} {rest : List Char} {fuel : Nat}
    (hf : ns.length ≤ fuel) (h1 : HeadNot Char.isDigit rest) (h2 : NoDotDigit rest) :
    parseDotNums fuel (renderDots ns ++ rest) = (ns, rest) := by
  induction ns generalizing fuel with
  | nil =>
    simp only [renderDots, List.nil_append]
    exact parseDotNums_none h2
  | cons n t ih =>
    cases fuel with
    | zero => simp at hf
    | succ f =>
      have hnum : parseNum ((natDigits n ++ renderDots t) ++ rest) =
          some (n, renderDots t ++ rest) := by
        rw [List.append_assoc]
        exact parseNum_render (headNot_digit_renderDots h1)
      have hih : parseDotNums f (renderDots t ++ rest) = (t, rest) :=
        ih (by simpa using hf)
      show parseDotNums (f + 1) (('.' :: (natDigits n ++ renderDots t)) ++ rest) = _
      rw [List.cons_append]
      unfold parseDotNums
      simp only [hnum, hih]

theorem isPrefixOf_digits_false {a : Char} (as : List Char) {n : Nat} (rest : List Char)
    (ha : a.isDigit = false) :
    List.isPrefixOf (a :: as) (natDigits n ++ rest) = false := by
  cases hd : natDigits n with
  | nil => exact absurd hd (natDigits_ne_nil n)
  | cons d t =>
    have hdig : d.isDigit = true := natDigits_isDigit n d (by rw [hd]; simp)
    have hne : (a == d) = false := by
      cases hab : (a == d) with
      | false => rfl
      | true =>
        have hx : a = d := by simpa using hab
        rw [hx, hdig] at ha
        exact Bool.noConfusion ha
    simp [List.isPrefixOf, hne]

theorem parseAlts_pre (l : PreL) (n : Nat) (rest : List Char) :
    parseAlts preAlts (preLChars l ++ (natDigits n ++ rest)) =
      some (l, natDigits n ++ rest) := by
  cases l with
  | a =>
    have h1 : List.isPrefixOf ['l', 'p', 'h', 'a'] (natDigits n ++ rest) = false :=
      isPrefixOf_digits_false _ _ (by decide)
    simp [parseAlts, preAlts, preLChars, List.isPrefixOf, h1]
  | b =>
    have h1 : List.isPrefixOf ['e', 't', 'a'] (natDigits n ++ rest) = false :=
      isPrefixOf_digits_false _ _ (by decide)
    simp [parseAlts, preAlts, preLChars, List.isPrefixOf, h1]
  | rc =>
    simp [parseAlts, preAlts, preLChars, List.isPrefixOf]

theorem parseLetterNum_of_alts {α : Type} {alts : List (List Char × α)}
    {cs cs1 : List Char} {l : α} {n : Nat} {rest : List Char}
    (hsk : parseSep cs = cs1)
    (ha : parseAlts alts cs1 = some (l, natDigits n ++ rest))
    (h : HeadNot Char.isDigit rest) :
    parseLetterNum alts cs = (some (l, n), rest) := by
  unfold parseLetterNum
  simp only [hsk, ha, parseSep_skip (headNot_digits_sep n rest), parseNum_render h]

theorem parsePreGroup_render {l : PreL} {n : Nat} {rest : List Char}
    (h : HeadNot Char.isDigit rest) :
    parsePreGroup (preLChars l ++ (natDigits n ++ rest)) = (some (l, n), rest) := by
  have hsk : parseSep (preLChars l ++ (natDigits n ++ rest)) =
      preLChars l ++ (natDigits n ++ rest) := by
    cases l <;> exact parseSep_skip (headNot_cons (by decide) _)
  exact parseLetterNum_of_alts hsk (parseAlts_pre l n rest) h

theorem parseAlts_post (n : Nat) (rest : List Char) :
    parseAlts postAlts ('p' :: 'o' :: 's' :: 't' :: (natDigits n ++ rest)) =
      some ((), natDigits n ++ rest) := by
  simp [parseAlts, postAlts, List.isPrefixOf]

theorem parsePostGroup_render {n : Nat} {rest : List Char}
    (h : HeadNot Char.isDigit rest) :
    parsePostGroup ('.' :: 'p' :: 'o' :: 's' :: 't' :: (natDigits n ++ rest)) =
      (some n, rest) := by
  have hln : parseLetterNum postAlts ('.' :: 'p' :: 'o' :: 's' :: 't' :: (natDigits n ++ rest)) =
      (some ((), n), rest) :=
    parseLetterNum_of_alts (by simp [parseSep, isSepChar]) (parseAlts_post n rest) h
  simp only [parsePostGroup, hln]
  rfl

theorem parseAlts_dev (n : Nat) (rest : List Char) :
    parseAlts devAlts ('d' :: 'e' :: 'v' :: (natDigits n ++ rest)) =
      some ((), natDigits n ++ rest) := by
  simp [parseAlts, devAlts, List.isPrefixOf]

theorem parseDevGroup_render {n : Nat} {rest : List Char}
    (h : HeadNot Char.isDigit rest) :
    parseDevGroup ('.' :: 'd' :: 'e' :: 'v' :: (natDigits n ++ rest)) =
      (some n, rest) := by
  have hln : parseLetterNum devAlts ('.' :: 'd' :: 'e' :: 'v' :: (natDigits n ++ rest)) =
      (some ((), n), rest) :=
    parseLetterNum_of_alts (by simp [parseSep, isSepChar]) (parseAlts_dev n rest) h
  simp only [parseDevGroup, hln]

theorem parsePreGroup_skip_post (cs : List Char) :
    parsePreGroup ('.' :: 'p' :: 'o' :: cs) = (none, '.' :: 'p' :: 'o' :: cs) := rfl

theorem parsePreGroup_skip_dev (cs : List Char) :
    parsePreGroup ('.' :: 'd' :: 'e' :: cs) = (none, '.' :: 'd' :: 'e' :: cs) := rfl

theorem parsePreGroup_skip_plus (cs : List Char) :
    parsePreGroup ('+' :: cs) = (none, '+' :: cs) := rfl

theorem parsePreGroup_nil : parsePreGroup [] = (none, []) := rfl

theorem parsePostGroup_skip_dev (cs : List Char) :
    parsePostGroup ('.' :: 'd' :: 'e' :: cs) = (none, '.' :: 'd' :: 'e' :: cs) := rfl

theorem parsePostGroup_skip_plus (cs : List Char) :
    parsePostGroup ('+' :: cs) = (none, '+' :: cs) := rfl

theorem parsePostGroup_nil : parsePostGroup [] = (none, []) := rfl

theorem parseDevGroup_skip_plus (cs : List Char) :
    parseDevGroup ('+' :: cs) = (none, '+' :: cs) := rfl

theorem parseDevGroup_nil : parseDevGroup [] = (none, []) := rfl

/-! ### Local-version segment lemmas -/

theorem isLocalChar_of_isDigit {c : Char} (h : c.isDigit = true) :
    isLocalChar c = true := by
  simp [isLocalChar, h]

theorem renderSeg_ne_nil {sg : LocalSeg} (h : SegWf sg) : renderSeg sg ≠ [] := by
  cases sg with
  | num n => exact natDigits_ne_nil n
  | str s => exact h.1

theorem renderSeg_all_local {sg : LocalSeg} (h : SegWf sg) :
    ∀ c ∈ renderSeg sg, isLocalChar c = true := by
  cases sg with
  | num n => exact fun c hc => isLocalChar_of_isDigit (natDigits_isDigit n c hc)
  | str s => exact h.2.1

theorem localSeg_renderSeg {sg : LocalSeg} (h : SegWf sg) :
    localSeg (renderSeg sg) = sg := by
  cases sg with
  | num n =>
    have hall : (natDigits n).all Char.isDigit = true := by
      rw [List.all_eq_true]
      exact natDigits_isDigit n
    simp [localSeg, renderSeg, hall, digitsVal_natDigits]
  | str s =>
    have hnall : s.all Char.isDigit = false := by
      cases hb : s.all Char.isDigit with
      | false => rfl
      | true => exact absurd hb h.2.2
    simp [localSeg, renderSeg, hnall]

theorem localSeg_isEmpty_false {sg : LocalSeg} (h : SegWf sg) :
    (renderSeg sg).isEmpty = false := by
  cases hs : renderSeg sg with
  | nil => exact absurd hs (renderSeg_ne_nil h)
  | cons a l => rfl

theorem parseLocalSegs_render {segs : List LocalSeg} {fuel : Nat}
    (hw : ∀ sg ∈ segs, SegWf sg) (hne : segs ≠ []) (hf : segs.length ≤ fuel + 1) :
    parseLocalSegs fuel (renderSegs segs) = some (segs, []) := by
  induction segs generalizing fuel with
  | nil => exact absurd rfl hne
  | cons sg t ih =>
    have hsg : SegWf sg := hw sg (by simp)
    cases t with
    | nil =>
      have htake : List.takeWhile isLocalChar (renderSeg sg) = renderSeg sg := by
        have := @takeWhile_append_all _ _ [] (renderSeg_all_local hsg)
        simpa using this
      have hdrop : List.dropWhile isLocalChar (renderSeg sg) = [] := by
        have := @dropWhile_append_all _ _ [] (renderSeg_all_local hsg)
        simpa using this
      show parseLocalSegs fuel (renderSeg sg) = some ([sg], [])
      cases fuel with
      | zero =>
        unfold parseLocalSegs
        simp only [htake, hdrop, localSeg_isEmpty_false hsg, Bool.false_eq_true,
          if_false, localSeg_renderSeg hsg]
      | succ f =>
        unfold parseLocalSegs
        simp only [htake, hdrop, localSeg_isEmpty_false hsg, Bool.false_eq_true,
          if_false, localSeg_renderSeg hsg]
    | cons sg2 t2 =>
      have hrest : renderSegs (sg :: sg2 :: t2) =
          renderSeg sg ++ ('.' :: renderSegs (sg2 :: t2)) := rfl
      have htake : List.takeWhile isLocalChar
          (renderSeg sg ++ ('.' :: renderSegs (sg2 :: t2))) = renderSeg sg := by
        rw [takeWhile_append_all (renderSeg_all_local hsg),
          takeWhile_eq_nil_of_headNot (headNot_cons (by decide) _), List.append_nil]
      have hdrop : List.dropWhile isLocalChar
          (renderSeg sg ++ ('.' :: renderSegs (sg2 :: t2))) =
          '.' :: renderSegs (sg2 :: t2) := by
        rw [dropWhile_append_all (renderSeg_all_local hsg),
          dropWhile_eq_self_of_headNot (headNot_cons (by decide) _)]
      cases fuel with
      | zero => simp at hf
      | succ f =>
        have hih : parseLocalSegs f (renderSegs (sg2 :: t2)) = some (sg2 :: t2, []) := by
          refine ih (fun s hs => hw s (by simp [hs])) (by simp) ?_
          simpa using hf
        rw [hrest]
        unfold parseLocalSegs
        simp only [htake, hdrop, localSeg_isEmpty_false hsg, Bool.false_eq_true,
          if_false, hih, localSeg_renderSeg hsg, isSepChar]
        simp

theorem localSeg_wf {run : List Char} (hne : run ≠ [])
    (hall : ∀ c ∈ run, isLocalChar c = true) : SegWf (localSeg run) := by
  unfold localSeg
  split
  · trivial
  · next hd => exact ⟨hne, hall, by simpa using hd⟩

theorem parseLocalSegs_wf {fuel : Nat} :
    ∀ {cs : List Char} {sgs : List LocalSeg} {r : List Char},
      parseLocalSegs fuel cs = some (sgs, r) → sgs ≠ [] ∧ ∀ sg ∈ sgs, SegWf sg := by
  induction fuel with
  | zero =>
    intro cs sgs r h
    unfold parseLocalSegs at h
    split at h
    · exact absurd h (by simp)
    · next hemp =>
      have hrun := @localSeg_wf (cs.takeWhile isLocalChar)
        (by simpa [List.isEmpty_iff] using hemp)
        (fun c hc => List.mem_takeWhile_imp hc)
      simp only [Option.some.injEq, Prod.mk.injEq] at h
      rcases h with ⟨h1, _⟩
      rw [← h1]
      exact ⟨by simp, by simpa using hrun⟩
  | succ f ih =>
    intro cs sgs r h
    unfold parseLocalSegs at h
    split at h
    · exact absurd h (by simp)
    · next hemp =>
      have hrun := @localSeg_wf (cs.takeWhile isLocalChar)
        (by simpa [List.isEmpty_iff] using hemp)
        (fun c hc => List.mem_takeWhile_imp hc)
      split at h
      · split at h
        · split at h
          · rename_i segs2 r2 hrec
            simp only [Option.some.injEq, Prod.mk.injEq] at h
            rcases h with ⟨h1, _⟩
            obtain ⟨hne2, hwf2⟩ := ih hrec
            rw [← h1]
            refine ⟨by simp, ?_⟩
            intro sg hsg
            rcases List.mem_cons.mp hsg with he | he
            · rw [he]; exact hrun
            · exact hwf2 sg he
          · simp only [Option.some.injEq, Prod.mk.injEq] at h
            rcases h with ⟨h1, _⟩
            rw [← h1]
            exact ⟨by simp, by simpa using hrun⟩
        · simp only [Option.some.injEq, Prod.mk.injEq] at h
          rcases h with ⟨h1, _⟩
          rw [← h1]
          exact ⟨by simp, by simpa using hrun⟩
      · simp only [Option.some.injEq, Prod.mk.injEq] at h
        rcases h with ⟨h1, _⟩
        rw [← h1]
        exact ⟨by simp, by simpa using hrun⟩

theorem renderSegs_length (segs : List LocalSeg) :
    segs.length ≤ (renderSegs segs).length + 1 := by
  induction segs with
  | nil => simp
  | cons sg t ih =>
    cases t with
    | nil => simp
    | cons sg2 t2 =>
      have : renderSegs (sg :: sg2 :: t2) =
          renderSeg sg ++ ('.' :: renderSegs (sg2 :: t2)) := rfl
      rw [this]
      simp only [List.length_cons, List.length_append] at ih ⊢
      omega

theorem parseLocalGroup_render {segs : List LocalSeg}
    (hw : ∀ sg ∈ segs, SegWf sg) (hne : segs ≠ []) :
    parseLocalGroup ('+' :: renderSegs segs) = (some segs, []) := by
  have hstep : parseLocalGroup ('+' :: renderSegs segs) =
      match parseLocalSegs (renderSegs segs).length (renderSegs segs) with
      | some (sgs, r) => (some sgs, r)
      | none => (none, '+' :: renderSegs segs) := rfl
  rw [hstep, parseLocalSegs_render hw hne (renderSegs_length segs)]

theorem parseLocalGroup_nil : parseLocalGroup [] = (none, []) := rfl

theorem parseLocalGroup_wf (cs : List Char) : LocalWf (parseLocalGroup cs).1 := by
  unfold parseLocalGroup
  split
  · split
    · next segs r hp =>
      obtain ⟨h1, h2⟩ := parseLocalSegs_wf hp
      exact ⟨h1, h2⟩
    · trivial
  · trivial

/-! ### Chaining the optional groups over the canonical rendering -/

theorem beq_false_of_isDigit {c v : Char} (h : c.isDigit = true)
    (hv : v.isDigit = false) : (c == v) = false := by
  cases hb : (c == v) with
  | false => rfl
  | true =>
    have : c = v := by simpa using hb
    rw [this, hv] at h
    exact Bool.noConfusion h

theorem headNot_digits_of {p : Char → Bool} (hp : ∀ c, c.isDigit = true → p c = false)
    (n : Nat) (rest : List Char) : HeadNot p (natDigits n ++ rest) := by
  refine headNot_append_of_ne_nil rest ?_ (natDigits_ne_nil n)
  intro c hc
  cases hd : natDigits n with
  | nil => exact absurd hd (natDigits_ne_nil n)
  | cons d t =>
    have hdig : d.isDigit = true := natDigits_isDigit n d (by rw [hd]; simp)
    rw [hd] at hc
    simp only [List.head?_cons, Option.some.injEq] at hc
    rw [← hc]
    exact hp d hdig

theorem head_tail3_cases (post dev : Option Nat) (lseg : Option (List LocalSeg)) :
    ∀ c, (renderPost post ++ (renderDev dev ++ renderLocal lseg)).head? = some c →
      c = '.' ∨ c = '+' := by
  intro c hc
  cases post with
  | some n =>
    simp only [renderPost, List.cons_append, List.head?_cons, Option.some.injEq] at hc
    exact Or.inl hc.symm
  | none =>
    cases dev with
    | some n =>
      simp only [renderPost, renderDev, List.nil_append, List.cons_append,
        List.head?_cons, Option.some.injEq] at hc
      exact Or.inl hc.symm
    | none =>
      cases lseg with
      | some segs =>
        simp only [renderPost, renderDev, renderLocal, List.nil_append,
          List.head?_cons, Option.some.injEq] at hc
        exact Or.inr hc.symm
      | none => simp [renderPost, renderDev, renderLocal] at hc

theorem head_tail_cases (pre : Option (PreL × Nat)) (post dev : Option Nat)
    (lseg : Option (List LocalSeg)) :
    ∀ c, (renderPre pre ++ (renderPost post ++ (renderDev dev ++ renderLocal lseg))).head? =
        some c →
      c = 'a' ∨ c = 'b' ∨ c = 'r' ∨ c = '.' ∨ c = '+' := by
  intro c hc
  cases pre with
  | some p =>
    obtain ⟨l, n⟩ := p
    cases l with
    | a =>
      simp only [renderPre, preLChars, List.cons_append, List.nil_append,
        List.append_assoc, List.head?_cons, Option.some.injEq] at hc
      exact Or.inl hc.symm
    | b =>
      simp only [renderPre, preLChars, List.cons_append, List.nil_append,
        List.append_assoc, List.head?_cons, Option.some.injEq] at hc
      exact Or.inr (Or.inl hc.symm)
    | rc =>
      simp only [renderPre, preLChars, List.cons_append, List.nil_append,
        List.append_assoc, List.head?_cons, Option.some.injEq] at hc
      exact Or.inr (Or.inr (Or.inl hc.symm))
  | none =>
    rcases head_tail3_cases post dev lseg c (by simpa [renderPre] using hc) with h | h
    · exact Or.inr (Or.inr (Or.inr (Or.inl h)))
    · exact Or.inr (Or.inr (Or.inr (Or.inr h)))

theorem headNot_digit_local (lseg : Option (List LocalSeg)) :
    HeadNot Char.isDigit (renderLocal lseg) := by
  cases lseg with
  | none => exact headNot_nil _
  | some segs => exact headNot_cons (by decide) _

theorem headNot_digit_devLocal (dev : Option Nat) (lseg : Option (List LocalSeg)) :
    HeadNot Char.isDigit (renderDev dev ++ renderLocal lseg) := by
  cases dev with
  | none => simpa [renderDev] using headNot_digit_local lseg
  | some n => exact headNot_cons (by decide) _

theorem headNot_digit_tail3 (post dev : Option Nat) (lseg : Option (List LocalSeg)) :
    HeadNot Char.isDigit (renderPost post ++ (renderDev dev ++ renderLocal lseg)) := by
  intro c hc
  rcases head_tail3_cases post dev lseg c hc with h | h <;> subst h <;> decide

theorem headNot_digit_tail (pre : Option (PreL × Nat)) (post dev : Option Nat)
    (lseg : Option (List LocalSeg)) :
    HeadNot Char.isDigit
      (renderPre pre ++ (renderPost post ++ (renderDev dev ++ renderLocal lseg))) := by
  intro c hc
  rcases head_tail_cases pre post dev lseg c hc with h | h | h | h | h <;>
    subst h <;> decide

theorem chainLocal {lseg : Option (List LocalSeg)} (hw : LocalWf lseg) :
    parseLocalGroup (renderLocal lseg) = (lseg, []) := by
  cases lseg with
  | none => rfl
  | some segs => exact parseLocalGroup_render hw.2 hw.1

theorem chainDev {dev : Option Nat} {lseg : Option (List LocalSeg)} (hw : LocalWf lseg) :
    parseDevGroup (renderDev dev ++ renderLocal lseg) = (dev, renderLocal lseg) := by
  cases dev with
  | some n =>
    have h : HeadNot Char.isDigit (renderLocal lseg) := headNot_digit_local lseg
    exact parseDevGroup_render h
  | none =>
    cases lseg with
    | none => exact parseDevGroup_nil
    | some segs => exact parseDevGroup_skip_plus _

theorem chainPost {post dev : Option Nat} {lseg : Option (List LocalSeg)} :
    parsePostGroup (renderPost post ++ (renderDev dev ++ renderLocal lseg)) =
      (post, renderDev dev ++ renderLocal lseg) := by
  cases post with
  | some n => exact parsePostGroup_render (headNot_digit_devLocal dev lseg)
  | none =>
    cases dev with
    | some n => exact parsePostGroup_skip_dev _
    | none =>
      cases lseg with
      | none => exact parsePostGroup_nil
      | some segs => exact parsePostGroup_skip_plus _

theorem chainPre {pre : Option (PreL × Nat)} {post dev : Option Nat}
    {lseg : Option (List LocalSeg)} :
    parsePreGroup (renderPre pre ++ (renderPost post ++ (renderDev dev ++ renderLocal lseg))) =
      (pre, renderPost post ++ (renderDev dev ++ renderLocal lseg)) := by
  cases pre with
  | some p =>
    obtain ⟨l, n⟩ := p
    have h := parsePreGroup_render (l := l) (n := n)
      (headNot_digit_tail3 post dev lseg)
    simpa [renderPre, List.append_assoc] using h
  | none =>
    cases post with
    | some n => exact parsePreGroup_skip_post _
    | none =>
      cases dev with
      | some n => exact parsePreGroup_skip_dev _
      | none =>
        cases lseg with
        | none => exact parsePreGroup_nil
        | some segs => exact parsePreGroup_skip_plus _

theorem noDotDigit_tail (pre : Option (PreL × Nat)) (post dev : Option Nat)
    (lseg : Option (List LocalSeg)) :
    NoDotDigit (renderPre pre ++ (renderPost post ++ (renderDev dev ++ renderLocal lseg))) := by
  intro c r heq
  cases pre with
  | some p =>
    obtain ⟨l, n⟩ := p
    cases l <;> simp [renderPre, preLChars, List.cons_append, List.append_assoc] at heq
  | none =>
    cases post with
    | some n =>
      simp only [renderPre, List.nil_append, renderPost, List.cons_append,
        List.cons.injEq] at heq
      rw [← heq.2.1]
      decide
    | none =>
      cases dev with
      | some n =>
        simp only [renderPre, renderPost, List.nil_append, renderDev, List.cons_append,
          List.cons.injEq] at heq
        rw [← heq.2.1]
        decide
      | none =>
        cases lseg with
        | some segs => simp [renderPre, renderPost, renderDev, renderLocal] at heq
        | none => simp [renderPre, renderPost, renderDev, renderLocal] at heq

theorem vStrip_skip {cs : List Char} (h : HeadNot (fun c => c == 'v') cs) :
    vStrip cs = cs := by
  unfold vStrip
  split
  · rename_i rest
    exact absurd (h 'v' rfl) (by decide)
  · rfl

theorem parseCore_render {w : PVersion} (hw : w.Wf) : parseCore (render w) = some w := by
  obtain ⟨e, rel, pre, post, dev, lseg⟩ := w
  obtain ⟨hrel, hlw⟩ := hw
  cases rel with
  | nil => exact absurd rfl hrel
  | cons r0 rs =>
    have hT_digit := headNot_digit_tail pre post dev lseg
    have hT_nodot := noDotDigit_tail pre post dev lseg
    have hQ_digit : HeadNot Char.isDigit
        (renderDots rs ++ (renderPre pre ++ (renderPost post ++ (renderDev dev ++ renderLocal lseg)))) :=
      headNot_digit_renderDots hT_digit
    have hnum : parseNum (natDigits r0 ++ (renderDots rs ++ (renderPre pre ++ (renderPost post ++ (renderDev dev ++ renderLocal lseg))))) =
        some (r0, renderDots rs ++ (renderPre pre ++ (renderPost post ++ (renderDev dev ++ renderLocal lseg)))) :=
      parseNum_render hQ_digit
    have hf : rs.length ≤ (renderDots rs ++ (renderPre pre ++ (renderPost post ++ (renderDev dev ++ renderLocal lseg)))).length := by
      have := renderDots_length rs
      simp only [List.length_append]
      omega
    have hdot := parseDotNums_render hf hT_digit hT_nodot
    have hpre := @chainPre pre post dev lseg
    have hpost := @chainPost post dev lseg
    have hdev := @chainDev dev lseg hlw
    have hloc := chainLocal hlw
    have hmain : ∀ cs : List Char, vStrip cs = cs →
        parseEpoch cs = (e, natDigits r0 ++ (renderDots rs ++ (renderPre pre ++ (renderPost post ++ (renderDev dev ++ renderLocal lseg))))) →
        parseCore cs = some ⟨e, r0 :: rs, pre, post, dev, lseg⟩ := by
      intro cs hv hep
      unfold parseCore
      simp only [hv, hep, hnum, hdot, hpre, hpost, hdev, hloc, List.isEmpty_nil, if_true]
    have hbang : (renderDots rs ++ (renderPre pre ++ (renderPost post ++ (renderDev dev ++ renderLocal lseg)))).head? ≠ some '!' := by
      cases rs with
      | cons n t => simp [renderDots]
      | nil =>
        intro hcon
        rcases head_tail_cases pre post dev lseg '!' (by simpa [renderDots] using hcon)
          with h | h | h | h | h <;> exact absurd h (by decide)
    by_cases he : e = 0
    · subst he
      have hv : vStrip (natDigits r0 ++ (renderDots rs ++ (renderPre pre ++ (renderPost post ++ (renderDev dev ++ renderLocal lseg))))) = _ :=
        vStrip_skip (headNot_digits_of (fun c h => beq_false_of_isDigit h (by decide)) r0 _)
      have hep : parseEpoch (natDigits r0 ++ (renderDots rs ++ (renderPre pre ++ (renderPost post ++ (renderDev dev ++ renderLocal lseg))))) =
          (0, natDigits r0 ++ (renderDots rs ++ (renderPre pre ++ (renderPost post ++ (renderDev dev ++ renderLocal lseg))))) := by
        refine parseEpoch_skip ?_
        intro n r hpn
        rw [hnum] at hpn
        have h2 : r = renderDots rs ++ (renderPre pre ++ (renderPost post ++ (renderDev dev ++ renderLocal lseg))) := by
          simpa using (congrArg Prod.snd (Option.some.inj hpn)).symm
        rw [h2]
        exact hbang
      have hfin := hmain _ hv hep
      simpa [render, renderEpoch, renderRelease, List.append_assoc] using hfin
    · have hv : vStrip (natDigits e ++ ('!' :: (natDigits r0 ++ (renderDots rs ++ (renderPre pre ++ (renderPost post ++ (renderDev dev ++ renderLocal lseg))))))) = _ :=
        vStrip_skip (headNot_digits_of (fun c h => beq_false_of_isDigit h (by decide)) e _)
      have hep := @parseEpoch_render e
        (natDigits r0 ++ (renderDots rs ++ (renderPre pre ++ (renderPost post ++ (renderDev dev ++ renderLocal lseg)))))
      have hfin := hmain _ hv hep
      simpa [render, renderEpoch, he, renderRelease, List.append_assoc, List.cons_append] using hfin

/-! ### The canonical rendering survives whitespace-stripping and lowercasing -/

theorem toLower_eq_self {c : Char} (h : c.toNat < 65 ∨ 90 < c.toNat) :
    c.toLower = c := by
  simp only [Char.toLower]
  rw [if_neg (by omega)]

theorem isDigit_toNat_range {c : Char} (h : c.isDigit = true) :
    48 ≤ c.toNat ∧ c.toNat ≤ 57 := by
  simp only [Char.isDigit, Bool.and_eq_true, decide_eq_true_eq] at h
  obtain ⟨h1, h2⟩ := h
  exact ⟨UInt32.le_toNat_of_le (by decide) h1, UInt32.toNat_le_of_le (by decide) h2⟩

/-- A canonical-rendering character: not whitespace and fixed by lowercasing. -/
def GoodChar (c : Char) : Prop :=
  isPySpace c = false ∧ c.toLower = c

theorem goodChar_of_isDigit {c : Char} (h : c.isDigit = true) : GoodChar c := by
  constructor
  · cases hb : isPySpace c with
    | false => rfl
    | true =>
      exfalso
      simp only [isPySpace, Bool.or_eq_true, decide_eq_true_eq] at hb
      rcases hb with ((((h1 | h1) | h1) | h1) | h1) | h1 <;> subst h1 <;>
        exact absurd h (by decide)
  · have := (isDigit_toNat_range h).2
    exact toLower_eq_self (Or.inl (by omega))

theorem goodChar_of_isLocalChar {c : Char} (h : isLocalChar c = true) : GoodChar c := by
  simp only [isLocalChar, Bool.or_eq_true, Bool.and_eq_true, decide_eq_true_eq] at h
  rcases h with ⟨h1, _⟩ | h
  · constructor
    · cases hb : isPySpace c with
      | false => rfl
      | true =>
        exfalso
        simp only [isPySpace, Bool.or_eq_true, decide_eq_true_eq] at hb
        rcases hb with ((((he | he) | he) | he) | he) | he <;> subst he <;>
          exact absurd h1 (by decide)
    · refine toLower_eq_self (Or.inr ?_)
      rw [Char.le_def] at h1
      have h97 : (97 : UInt32) ≤ c.val := h1
      have hle := UInt32.le_toNat_of_le (by decide) h97
      have hle2 : (97 : Nat) ≤ c.toNat := hle
      exact lt_of_lt_of_le (by norm_num) hle2
  · exact goodChar_of_isDigit h

theorem goodChar_natDigits (n : Nat) : ∀ c ∈ natDigits n, GoodChar c :=
  fun c hc => goodChar_of_isDigit (natDigits_isDigit n c hc)

theorem goodChar_renderDots (ns : List Nat) : ∀ c ∈ renderDots ns, GoodChar c := by
  induction ns with
  | nil => simp [renderDots]
  | cons n t ih =>
    intro c hc
    simp only [renderDots, List.mem_cons, List.mem_append] at hc
    rcases hc with hc | hc | hc
    · subst hc; exact ⟨rfl, rfl⟩
    · exact goodChar_natDigits n c hc
    · exact ih c hc

theorem goodChar_renderSegs {segs : List LocalSeg} (hw : ∀ sg ∈ segs, SegWf sg) :
    ∀ c ∈ renderSegs segs, GoodChar c := by
  induction segs with
  | nil => simp [renderSegs]
  | cons sg t ih =>
    have hsg : SegWf sg := hw sg (by simp)
    have hseg : ∀ c ∈ renderSeg sg, GoodChar c := fun c hc =>
      goodChar_of_isLocalChar (renderSeg_all_local hsg c hc)
    cases t with
    | nil => simpa [renderSegs] using hseg
    | cons sg2 t2 =>
      intro c hc
      have hshape : renderSegs (sg :: sg2 :: t2) =
          renderSeg sg ++ ('.' :: renderSegs (sg2 :: t2)) := rfl
      rw [hshape] at hc
      simp only [List.mem_append, List.mem_cons] at hc
      rcases hc with hc | hc | hc
      · exact hseg c hc
      · subst hc; exact ⟨rfl, rfl⟩
      · exact ih (fun s hs => hw s (by simp [hs])) c hc

theorem goodChar_render {w : PVersion} (hw : w.Wf) : ∀ c ∈ render w, GoodChar c := by
  obtain ⟨e, rel, pre, post, dev, lseg⟩ := w
  obtain ⟨_, hlw⟩ := hw
  intro c hc
  simp only [render, List.mem_append] at hc
  rcases hc with ((((hc | hc) | hc) | hc) | hc) | hc
  · unfold renderEpoch at hc
    split at hc
    · simp at hc
    · simp only [List.mem_append, List.mem_singleton] at hc
      rcases hc with hc | hc
      · exact goodChar_natDigits e c hc
      · subst hc; exact ⟨rfl, rfl⟩
  · cases rel with
    | nil => simp [renderRelease] at hc
    | cons r0 rs =>
      simp only [renderRelease, List.mem_append] at hc
      rcases hc with hc | hc
      · exact goodChar_natDigits r0 c hc
      · exact goodChar_renderDots rs c hc
  · cases pre with
    | none => simp [renderPre] at hc
    | some p =>
      obtain ⟨l, n⟩ := p
      simp only [renderPre, List.mem_append] at hc
      rcases hc with hc | hc
      · cases l with
        | a =>
          simp only [preLChars, List.mem_singleton] at hc
          subst hc; exact ⟨rfl, rfl⟩
        | b =>
          simp only [preLChars, List.mem_singleton] at hc
          subst hc; exact ⟨rfl, rfl⟩
        | rc =>
          simp only [preLChars, List.mem_cons, List.mem_singleton,
            List.not_mem_nil] at hc
          rcases hc with hc | hc | hc
          · subst hc; exact ⟨rfl, rfl⟩
          · subst hc; exact ⟨rfl, rfl⟩
          · exact hc.elim
      · exact goodChar_natDigits n c hc
  · cases post with
    | none => simp [renderPost] at hc
    | some n =>
      simp only [renderPost, List.mem_cons] at hc
      rcases hc with hc | hc | hc | hc | hc | hc
      · subst hc; exact ⟨rfl, rfl⟩
      · subst hc; exact ⟨rfl, rfl⟩
      · subst hc; exact ⟨rfl, rfl⟩
      · subst hc; exact ⟨rfl, rfl⟩
      · subst hc; exact ⟨rfl, rfl⟩
      · exact goodChar_natDigits n c hc
  · cases dev with
    | none => simp [renderDev] at hc
    | some n =>
      simp only [renderDev, List.mem_cons] at hc
      rcases hc with hc | hc | hc | hc | hc
      · subst hc; exact ⟨rfl, rfl⟩
      · subst hc; exact ⟨rfl, rfl⟩
      · subst hc; exact ⟨rfl, rfl⟩
      · subst hc; exact ⟨rfl, rfl⟩
      · exact goodChar_natDigits n c hc
  · cases lseg with
    | none => simp [renderLocal] at hc
    | some segs =>
      simp only [renderLocal, List.mem_cons] at hc
      rcases hc with hc | hc
      · subst hc; exact ⟨rfl, rfl⟩
      · exact goodChar_renderSegs hlw.2 c hc

theorem mem_of_head? {c : Char} {l : List Char} (h : l.head? = some c) : c ∈ l := by
  cases l with
  | nil => simp at h
  | cons a t =>
    simp only [List.head?_cons, Option.some.injEq] at h
    rw [← h]
    simp

theorem wsStrip_eq_self {l : List Char} (h : ∀ c ∈ l, isPySpace c = false) :
    wsStrip l = l := by
  unfold wsStrip
  rw [dropWhile_eq_self_of_headNot (fun c hc => h c (mem_of_head? hc)),
    dropWhile_eq_self_of_headNot
      (fun c hc => h c (List.mem_reverse.mp (mem_of_head? hc))),
    List.reverse_reverse]

theorem map_fix {f : Char → Char} : ∀ {l : List Char}, (∀ c ∈ l, f c = c) →
    l.map f = l := by
  intro l h
  induction l with
  | nil => rfl
  | cons a t ih => simp [h a (by simp), ih fun c hc => h c (by simp [hc])]

theorem pep440Parse_render {w : PVersion} (hw : w.Wf) :
    pep440Parse (renderStr w) = some w := by
  have hg := goodChar_render hw
  unfold pep440Parse renderStr
  rw [show (String.mk (render w)).data = render w from rfl]
  rw [wsStrip_eq_self fun c hc => (hg c hc).1]
  rw [show asciiLowerAll (render w) = render w from map_fix fun c hc => (hg c hc).2]
  exact parseCore_render hw

theorem parseCore_wf {cs : List Char} {w : PVersion} (h : parseCore cs = some w) :
    w.Wf := by
  unfold parseCore at h
  cases hp : parseNum (parseEpoch (vStrip cs)).2 with
  | none =>
    simp only [hp] at h
    exact absurd h (by simp)
  | some p =>
    obtain ⟨r0, cs1⟩ := p
    simp only [hp] at h
    split at h
    · have hw := Option.some.inj h
      rw [← hw]
      exact ⟨by simp, parseLocalGroup_wf _⟩
    · exact absurd h (by simp)

theorem pep440Parse_wf {s : String} {w : PVersion} (h : pep440Parse s = some w) :
    w.Wf := by
  unfold pep440Parse at h
  exact parseCore_wf h

/-! ### Shape of the sanitized fallback string

`sanitize` produces dot-separated nonempty alphanumeric runs (or the empty
string), which is exactly the grammar of a local version label.
-/

/-- No two adjacent dots. -/
def NoAdjDots : List Char → Prop
  | [] => True
  | [_] => True
  | a :: b :: rest => ¬(a = '.' ∧ b = '.') ∧ NoAdjDots (b :: rest)

theorem noAdjDots_tail {a : Char} {t : List Char} (h : NoAdjDots (a :: t)) :
    NoAdjDots t := by
  cases t with
  | nil => trivial
  | cons b r => exact h.2

theorem noAdjDots_cons {a : Char} {t : List Char} (ht : NoAdjDots t)
    (h : ∀ b r, t = b :: r → ¬(a = '.' ∧ b = '.')) : NoAdjDots (a :: t) := by
  cases t with
  | nil => trivial
  | cons b r => exact ⟨h b r rfl, ht⟩

theorem noAdjDots_append_right {xs ys : List Char} (h : NoAdjDots (xs ++ ys)) :
    NoAdjDots ys := by
  induction xs with
  | nil => exact h
  | cons x t ih => exact ih (noAdjDots_tail h)

theorem collapseDots_all (l : List Char) :
    ∀ c ∈ collapseDots l, isLocalChar c = true ∨ c = '.' := by
  induction l with
  | nil => simp [collapseDots]
  | cons a t ih =>
    intro c hc
    unfold collapseDots at hc
    split at hc
    · next hl =>
      rcases List.mem_cons.mp hc with he | he
      · subst he
        exact Or.inl hl
      · exact ih c he
    · split at hc
      · next tl heq =>
        rcases List.mem_cons.mp hc with he | he
        · exact Or.inr he
        · exact ih c (by rw [heq]; exact List.mem_cons_of_mem _ he)
      · rcases List.mem_cons.mp hc with he | he
        · exact Or.inr he
        · exact ih c he

theorem collapseDots_noAdj (l : List Char) : NoAdjDots (collapseDots l) := by
  induction l with
  | nil => trivial
  | cons a t ih =>
    unfold collapseDots
    split
    · next hl =>
      refine noAdjDots_cons ih ?_
      intro b r _ hab
      rw [hab.1] at hl
      exact absurd hl (by decide)
    · split
      · next tl heq =>
        rw [← heq]
        exact ih
      · next hshape =>
        refine noAdjDots_cons ih ?_
        intro b r heq hab
        exact hshape r (by rw [heq, hab.2])

theorem stripDotsRight_cons_ne {a : Char} (t : List Char) (h : ¬a = '.') :
    stripDotsRight (a :: t) = a :: stripDotsRight t := by
  have hstep : stripDotsRight (a :: t) =
      if a = '.' then
        match stripDotsRight t with
        | [] => []
        | x :: xs => '.' :: x :: xs
      else a :: stripDotsRight t := rfl
  rw [hstep, if_neg h]

theorem stripDotsRight_cons_dot (t : List Char) :
    stripDotsRight ('.' :: t) =
      match stripDotsRight t with
      | [] => []
      | x :: xs => '.' :: x :: xs := rfl

theorem stripDotsRight_mem (l : List Char) :
    ∀ c ∈ stripDotsRight l, c ∈ l := by
  induction l with
  | nil => simp [stripDotsRight]
  | cons a t ih =>
    intro c hc
    by_cases ha : a = '.'
    · subst ha
      rw [stripDotsRight_cons_dot] at hc
      cases hs : stripDotsRight t with
      | nil =>
        rw [hs] at hc
        simp at hc
      | cons x xs =>
        rw [hs] at hc
        rcases List.mem_cons.mp hc with he | he
        · subst he
          simp
        · exact List.mem_cons_of_mem _ (ih c (hs ▸ he))
    · rw [stripDotsRight_cons_ne t ha] at hc
      rcases List.mem_cons.mp hc with he | he
      · subst he
        simp
      · exact List.mem_cons_of_mem _ (ih c he)

theorem stripDotsRight_noAdj {l : List Char} (h : NoAdjDots l) :
    NoAdjDots (stripDotsRight l) := by
  induction l with
  | nil => trivial
  | cons a t ih =>
    by_cases ha : a = '.'
    · subst ha
      rw [stripDotsRight_cons_dot]
      cases hs : stripDotsRight t with
      | nil => trivial
      | cons x xs =>
        have hxs : NoAdjDots (x :: xs) := hs ▸ ih (noAdjDots_tail h)
        refine ⟨?_, hxs⟩
        rintro ⟨-, hx⟩
        cases t with
        | nil => exact List.noConfusion hs
        | cons b0 t0 =>
          have hb0 : ¬b0 = '.' := fun hb0 => h.1 ⟨rfl, hb0⟩
          rw [stripDotsRight_cons_ne t0 hb0] at hs
          have hbx : b0 = x := by
            have := congrArg List.head? hs
            simpa using this
          exact hb0 (hbx ▸ hx)
    · rw [stripDotsRight_cons_ne t ha]
      exact noAdjDots_cons (ih (noAdjDots_tail h)) fun b r _ hab => ha hab.1

theorem stripDotsRight_last (l : List Char) :
    (stripDotsRight l).getLast? ≠ some '.' := by
  induction l with
  | nil => simp [stripDotsRight]
  | cons a t ih =>
    by_cases ha : a = '.'
    · subst ha
      rw [stripDotsRight_cons_dot]
      cases hs : stripDotsRight t with
      | nil => simp
      | cons x xs =>
        rw [List.getLast?_cons_cons, ← hs]
        exact ih
    · rw [stripDotsRight_cons_ne t ha]
      cases hs : stripDotsRight t with
      | nil =>
        simp only [List.getLast?_singleton]
        intro hcon
        exact ha (by simpa using hcon)
      | cons x xs =>
        rw [List.getLast?_cons_cons, ← hs]
        exact ih

/-- A nonempty list of dot-separated alphanumeric runs is accepted in full by
the local-version parser. -/
theorem parseLocalSegs_accepts {fuel : Nat} :
    ∀ {cs : List Char}, cs ≠ [] →
      (∀ c ∈ cs, isLocalChar c = true ∨ c = '.') →
      (∀ c, cs.head? = some c → c ≠ '.') →
      cs.getLast? ≠ some '.' → NoAdjDots cs → cs.length ≤ fuel + 1 →
      ∃ segs, parseLocalSegs fuel cs = some (segs, []) := by
  induction fuel with
  | zero =>
    intro cs hne hall hhead _ _ hf
    cases cs with
    | nil => exact absurd rfl hne
    | cons c t =>
      cases t with
      | cons d t2 => simp at hf
      | nil =>
        have hlc : isLocalChar c = true := by
          rcases hall c (by simp) with h | h
          · exact h
          · exact absurd h (hhead c rfl)
        have htw : List.takeWhile isLocalChar [c] = [c] := by
          simp [List.takeWhile_cons, hlc]
        have hdw : List.dropWhile isLocalChar [c] = [] := by
          simp [List.dropWhile_cons, hlc]
        refine ⟨[localSeg [c]], ?_⟩
        unfold parseLocalSegs
        rw [htw, hdw]
        simp
  | succ f ih =>
    intro cs hne hall hhead hlast hadj hf
    have hrun_ne : cs.takeWhile isLocalChar ≠ [] := by
      cases cs with
      | nil => exact absurd rfl hne
      | cons c t =>
        have hlc : isLocalChar c = true := by
          rcases hall c (by simp) with h | h
          · exact h
          · exact absurd h (hhead c rfl)
        simp [List.takeWhile_cons, hlc]
    have hrun_emp : (cs.takeWhile isLocalChar).isEmpty = false := by
      cases hx : cs.takeWhile isLocalChar with
      | nil => exact absurd hx hrun_ne
      | cons a l => rfl
    have hsplit : cs.takeWhile isLocalChar ++ cs.dropWhile isLocalChar = cs :=
      List.takeWhile_append_dropWhile _ _
    have hstep : parseLocalSegs (f + 1) cs =
        if (cs.takeWhile isLocalChar).isEmpty then none
        else
          match cs.dropWhile isLocalChar with
          | s :: rest' =>
            if isSepChar s then
              match parseLocalSegs f rest' with
              | some (segs, r) => some (localSeg (cs.takeWhile isLocalChar) :: segs, r)
              | none => some ([localSeg (cs.takeWhile isLocalChar)], s :: rest')
            else some ([localSeg (cs.takeWhile isLocalChar)], s :: rest')
          | [] => some ([localSeg (cs.takeWhile isLocalChar)], []) := rfl
    cases hrest : cs.dropWhile isLocalChar with
    | nil =>
      refine ⟨[localSeg (cs.takeWhile isLocalChar)], ?_⟩
      rw [hstep, hrun_emp, hrest]
      simp
    | cons s rest' =>
      have hs_dot : s = '.' := by
        have hnl : isLocalChar s = false := dropWhile_head_not isLocalChar cs s
          (by rw [hrest]; rfl)
        have hmem : s ∈ cs := by
          have : s ∈ cs.dropWhile isLocalChar := by rw [hrest]; simp
          exact (List.dropWhile_sublist isLocalChar).subset this
        rcases hall s hmem with h | h
        · rw [hnl] at h
          exact Bool.noConfusion h
        · exact h
      subst hs_dot
      cases rest' with
      | nil =>
        exfalso
        apply hlast
        rw [← hsplit, hrest]
        rw [List.getLast?_append_of_ne_nil _ (by simp)]
        rfl
      | cons b cs2 =>
        have hadj2 : NoAdjDots ('.' :: b :: cs2) := by
          rw [← hsplit, hrest] at hadj
          exact noAdjDots_append_right hadj
        have hb : ¬b = '.' := fun hb => hadj2.1 ⟨rfl, hb⟩
        have hrec := @ih (b :: cs2) (by simp)
          (fun c hc => hall c (by
            rw [← hsplit, hrest]
            exact List.mem_append_right _ (List.mem_cons_of_mem _ hc)))
          (fun c hc => by
            simp only [List.head?_cons, Option.some.injEq] at hc
            rw [← hc]
            exact hb)
          (by
            rw [← hsplit, hrest] at hlast
            rw [List.getLast?_append_of_ne_nil _ (by simp), List.getLast?_cons_cons] at hlast
            exact hlast)
          hadj2.2
          (by
            have hlen := congrArg List.length hsplit
            simp only [List.length_append, hrest, List.length_cons] at hlen
            have h1 : 1 ≤ (cs.takeWhile isLocalChar).length := by
              cases hx : cs.takeWhile isLocalChar with
              | nil => exact absurd hx hrun_ne
              | cons a l => simp
            simp only [List.length_cons]
            omega)
        obtain ⟨segs2, hseg2⟩ := hrec
        refine ⟨localSeg (cs.takeWhile isLocalChar) :: segs2, ?_⟩
        rw [hstep, hrun_emp, hrest]
        simp only [Bool.false_eq_true, if_false, hseg2, isSepChar]
        simp

theorem sanitize_data (v : String) :
    (sanitize v).data = stripDotsRight ((collapseDots (asciiLowerAll v.data)).dropWhile (· = '.')) := rfl

theorem sanitize_all (v : String) :
    ∀ c ∈ (sanitize v).data, isLocalChar c = true ∨ c = '.' := by
  intro c hc
  rw [sanitize_data] at hc
  have h1 := stripDotsRight_mem _ c hc
  have h2 : c ∈ collapseDots (asciiLowerAll v.data) :=
    (List.dropWhile_sublist _).subset h1
  exact collapseDots_all _ c h2

theorem sanitize_head (v : String) :
    ∀ c, (sanitize v).data.head? = some c → c ≠ '.' := by
  intro c hc
  rw [sanitize_data] at hc
  have hhead : HeadNot (fun x => x = '.') ((collapseDots (asciiLowerAll v.data)).dropWhile (· = '.')) :=
    dropWhile_head_not _ _
  cases hd : (collapseDots (asciiLowerAll v.data)).dropWhile (· = '.') with
  | nil =>
    rw [hd] at hc
    simp [stripDotsRight] at hc
  | cons b t =>
    have hb : ¬b = '.' := by
      have := hhead b (by rw [hd]; rfl)
      simpa using this
    rw [hd, stripDotsRight_cons_ne t hb] at hc
    simp only [List.head?_cons, Option.some.injEq] at hc
    rw [← hc]
    exact hb

theorem sanitize_last (v : String) : (sanitize v).data.getLast? ≠ some '.' := by
  rw [sanitize_data]
  exact stripDotsRight_last _

theorem sanitize_noAdj (v : String) : NoAdjDots (sanitize v).data := by
  rw [sanitize_data]
  refine stripDotsRight_noAdj ?_
  have h1 := collapseDots_noAdj (asciiLowerAll v.data)
  have hsplit := List.takeWhile_append_dropWhile (fun x => x = '.')
    (collapseDots (asciiLowerAll v.data))
  rw [← hsplit] at h1
  exact noAdjDots_append_right h1

theorem sanitize_good (v : String) : ∀ c ∈ (sanitize v).data, GoodChar c := by
  intro c hc
  rcases sanitize_all v c hc with h | h
  · exact goodChar_of_isLocalChar h
  · subst h
    exact ⟨rfl, rfl⟩

/-! ## Byte-level primitives

Bytes are modelled as `Nat` (values < 256 in practice); 32-bit arithmetic is
explicit `% 2^32`.
-/

/-- UTF-8 encoding of one scalar value (Python's `str.encode("utf-8")`). -/
def utf8Bytes (c : Char) : List Nat :=
  let n := c.toNat
  if n < 128 then [n]
  else if n < 2048 then [192 + n / 64, 128 + n % 64]
  else if n < 65536 then [224 + n / 4096, 128 + (n / 64) % 64, 128 + n % 64]
  else [240 + n / 262144, 128 + (n / 4096) % 64, 128 + (n / 64) % 64, 128 + n % 64]

def strBytes (s : String) : List Nat :=
  (s.data.map utf8Bytes).flatten

/-- SHA-256 (the `hashlib.sha256` object), over byte lists. -/
def add32 (a b : Nat) : Nat :=
  (a + b) % 4294967296

def rotr32 (n x : Nat) : Nat :=
  ((x >>> n) ||| (x <<< (32 - n))) % 4294967296

def ssig0 (x : Nat) : Nat :=
  (rotr32 7 x) ^^^ (rotr32 18 x) ^^^ (x >>> 3)

def ssig1 (x : Nat) : Nat :=
  (rotr32 17 x) ^^^ (rotr32 19 x) ^^^ (x >>> 10)

def bsig0 (x : Nat) : Nat :=
  (rotr32 2 x) ^^^ (rotr32 13 x) ^^^ (rotr32 22 x)

def bsig1 (x : Nat) : Nat :=
  (rotr32 6 x) ^^^ (rotr32 11 x) ^^^ (rotr32 25 x)

def chV (x y z : Nat) : Nat :=
  (x &&& y) ^^^ ((x ^^^ 4294967295) &&& z)

def majV (x y z : Nat) : Nat :=
  (x &&& y) ^^^ (x &&& z) ^^^ (y &&& z)

/-- Split a big-endian packed word sequence into `n` 32-bit words. -/
def unpackWords32 : Nat -> Nat -> List Nat
  | 0, _ => []
  | n + 1, v => unpackWords32 n (v / 4294967296) ++ [v % 4294967296]

/-- The 64 SHA-256 round constants (FIPS 180-4), packed big-endian. -/
def sha256K : List Nat :=
  unpackWords32 64 0x428a2f9871374491b5c0fbcfe9b5dba53956c25b59f111f1923f82a4ab1c5ed5d807aa9812835b01243185be550c7dc372be5d7480deb1fe9bdc06a7c19bf174e49b69c1efbe47860fc19dc6240ca1cc2de92c6f4a7484aa5cb0a9dc76f988da983e5152a831c66db00327c8bf597fc7c6e00bf3d5a7914706ca63511429296727b70a852e1b21384d2c6dfc53380d13650a7354766a0abb81c2c92e92722c85a2bfe8a1a81a664bc24b8b70c76c51a3d192e819d6990624f40e3585106aa07019a4c1161e376c082748774c34b0bcb5391c0cb34ed8aa4a5b9cca4f682e6ff3748f82ee78a5636f84c878148cc7020890befffaa4506cebbef9a3f7c67178f2

/-- The eight SHA-256 initial hash values, packed big-endian. -/
def sha256H0 : List Nat :=
  unpackWords32 8 0x6a09e667bb67ae853c6ef372a54ff53a510e527f9b05688c1f83d9ab5be0cd19

def be64 (n : Nat) : List Nat :=
  [(n >>> 56) % 256, (n >>> 48) % 256, (n >>> 40) % 256, (n >>> 32) % 256,
   (n >>> 24) % 256, (n >>> 16) % 256, (n >>> 8) % 256, n % 256]

def sha256Pad (msg : List Nat) : List Nat :=
  msg ++ [128] ++ List.replicate ((119 - msg.length % 64) % 64) 0 ++
    be64 (8 * msg.length)

def bytesToWords : List Nat → List Nat
  | b0 :: b1 :: b2 :: b3 :: rest =>
    (((b0 * 256 + b1) * 256 + b2) * 256 + b3) :: bytesToWords rest
  | _ => []

/-- Split into chunks of `n` elements (`n ≥ 1`); the last chunk may be
shorter. -/
def chunkList (n : Nat) : List α → List (List α)
  | [] => []
  | x :: xs => (x :: xs.take (n - 1)) :: chunkList n (xs.drop (n - 1))
termination_by l => l.length
decreasing_by
  have hd := List.length_drop (n - 1) xs
  simp only [List.length_cons, hd]
  omega

def sha256Schedule (ws : List Nat) : List Nat :=
  (List.range 48).foldl
    (fun acc _ =>
      let k := acc.length
      acc ++ [add32 (add32 (ssig1 (acc.getD (k - 2) 0)) (acc.getD (k - 7) 0))
        (add32 (ssig0 (acc.getD (k - 15) 0)) (acc.getD (k - 16) 0))])
    ws

def sha256Round (st : List Nat) (kw : Nat × Nat) : List Nat :=
  match st with
  | [a, b, c, d, e, f, g, h] =>
    let t1 := add32 (add32 (add32 h (bsig1 e)) (add32 (chV e f g) kw.1)) kw.2
    let t2 := add32 (bsig0 a) (majV a b c)
    [add32 t1 t2, a, b, c, add32 d t1, e, f, g]
  | _ => st

def sha256Block (h : List Nat) (block : List Nat) : List Nat :=
  let ws := sha256Schedule block
  let st := (sha256K.zip ws).foldl sha256Round h
  (h.zip st).map fun p => add32 p.1 p.2

/-- The full SHA-256 digest (32 bytes) of a byte list. -/
def sha256Bytes (msg : List Nat) : List Nat :=
  let blocks := chunkList 16 (bytesToWords (sha256Pad msg))
  let hfin := blocks.foldl sha256Block sha256H0
  (hfin.map fun w => [(w >>> 24) % 256, (w >>> 16) % 256, (w >>> 8) % 256, w % 256]).flatten

/-- URL-safe base64 alphabet (`base64.urlsafe_b64encode`). -/
def b64Char (n : Nat) : Char :=
  if n < 26 then Char.ofNat (65 + n)
  else if n < 52 then Char.ofNat (97 + (n - 26))
  else if n < 62 then Char.ofNat (48 + (n - 52))
  else if n = 62 then '-'
  else '_'

def urlsafeB64 : List Nat → List Char
  | b0 :: b1 :: b2 :: rest =>
    b64Char (b0 >>> 2) :: b64Char (((b0 % 4) <<< 4) + (b1 >>> 4)) ::
      b64Char (((b1 % 16) <<< 2) + (b2 >>> 6)) :: b64Char (b2 % 64) :: urlsafeB64 rest
  | [b0, b1] =>
    [b64Char (b0 >>> 2), b64Char (((b0 % 4) <<< 4) + (b1 >>> 4)),
     b64Char ((b1 % 16) <<< 2), '=']
  | [b0] => [b64Char (b0 >>> 2), b64Char ((b0 % 4) <<< 4), '=', '=']
  | [] => []

def rstripEqs (cs : List Char) : List Char :=
  (cs.reverse.dropWhile (· = '=')).reverse

/-- `_WhlFile._serialize_digest` (wheelmaker.py lines 171-176):
`b"sha256=" + base64.urlsafe_b64encode(digest).rstrip(b"=")`. -/
def serializeDigest (digest : List Nat) : String :=
  ⟨"sha256=".data ++ rstripEqs (urlsafeB64 digest)⟩

/-! ## The `_WhlFile` archive writer (wheelmaker.py lines 98-207)

State passing over a `WhlFile` structure; the zip file is the `entries`
list, the `RECORD` accumulator is `record` (size already serialized with
`str(size)`, as `_add_to_record` does).  POSIX path configuration is fixed:
`os.path.sep = "/"`, `os.path.altsep = None`.
-/

/-- One zip member: the deterministic `ZipInfo` header fields plus the bytes
written for the member. -/
structure ZEntry where
  name : String
  dateTime : Nat × Nat × Nat × Nat × Nat × Nat
  createSystem : Nat
  externalAttr : Nat
  compressType : Nat
  content : List Nat
deriving DecidableEq, Repr

/-- `_ZIP_EPOCH = (1980, 1, 1, 0, 0, 0)` (wheelmaker.py line 26). -/
def zipEpoch : Nat × Nat × Nat × Nat × Nat × Nat :=
  (1980, 1, 1, 0, 0, 0)

/-- `filename.lstrip(separators)` with POSIX separators (`"/"`). -/
def lstripSlashes (s : String) : String :=
  ⟨s.data.dropWhile (· = '/')⟩

/-- `Path(p).name` for the paths the callers construct (no `.`/`..`
components): the final nonempty `/`-separated component. -/
def pathBasename (p : String) : String :=
  ⟨((p.data.reverse.dropWhile (· = '/')).takeWhile (· ≠ '/')).reverse⟩

structure WhlFile where
  distinfoDir : String
  stripPathPrefixes : List String
  compression : Nat
  record : List (String × String × String)
  entries : List ZEntry
deriving Repr

/-- `_WhlFile.__init__`: `self._distinfo_dir = Path(distinfo_dir).name`,
`ZIP_DEFLATED = 8`, empty record. -/
def mkWhlFile (distinfo_dir : String) (stripPathPrefixes : List String) : WhlFile :=
  { distinfoDir := pathBasename distinfo_dir
    stripPathPrefixes := stripPathPrefixes
    compression := 8
    record := []
    entries := [] }

/-- `_WhlFile.distinfo_path`. -/
def distinfoPath (st : WhlFile) (basename : String) : String :=
  st.distinfoDir ++ "/" ++ basename

/-- `name.replace(os.path.sep, "/")` — the identity under the POSIX
configuration (`os.path.sep` is already `"/"`). -/
def unixNorm (name : String) : String :=
  name

/-- The strip loop in `arcname_from`: the first matching element is removed
once; no match falls through to the unchanged name. -/
def stripFirst : List String → String → String
  | [], s => s
  | p :: ps, s =>
    if p.data.isPrefixOf s.data then ⟨s.data.drop p.data.length⟩ else stripFirst ps s

/-- `arcname_from` (wheelmaker.py lines 122-132). -/
def arcnameFrom (st : WhlFile) (name : String) : String :=
  if st.distinfoDir.data.isPrefixOf (unixNorm name).data then unixNorm name
  else stripFirst st.stripPathPrefixes (unixNorm name)

/-- `_WhlFile._zipinfo` (wheelmaker.py lines 182-194); the content is
streamed in afterwards by the caller. -/
def zipinfo (st : WhlFile) (filename : String) : ZEntry :=
  { name := lstripSlashes filename
    dateTime := zipEpoch
    createSystem := 3
    externalAttr := 511 <<< 16
    compressType := st.compression
    content := [] }

/-- A source filesystem node: a leaf file (bytes, with the metadata the
writer never reads), or a directory listing (`os.listdir` order). -/
inductive FsNode where
  | file (bytes : List Nat) (mtime : Nat) (mode : Nat)
  | dirNil
  | dirCons (name : String) (child : FsNode) (rest : FsNode)
deriving Repr

/-- The streamed-copy loop of `add_file`: 2^20-byte blocks, each written to
the archive, fed to the running hash, and counted. -/
def chunkBytes (bytes : List Nat) : List (List Nat) :=
  chunkList 1048576 bytes

/-- The leaf-file branch of `_WhlFile.add_file` (wheelmaker.py lines
143-159). -/
def addLeaf (st : WhlFile) (pkg : String) (bytes : List Nat) : WhlFile :=
  let arcname := arcnameFrom st pkg
  let zinfo := zipinfo st arcname
  let chunks := chunkBytes bytes
  let written := chunks.foldl (fun acc b => acc ++ b) []
  let msg := chunks.foldl (fun acc b => acc ++ b) []
  let size := chunks.foldl (fun acc b => acc + b.length) 0
  { st with
    entries := st.entries ++ [{ zinfo with content := written }]
    record := st.record ++ [(arcname, serializeDigest (sha256Bytes msg), natStr size)] }

/-- `_WhlFile.add_file` (wheelmaker.py lines 119-159): directories recurse
over their listing with `/`-joined names; leaf files stream into a member. -/
def addFile (st : WhlFile) (pkg : String) : FsNode → WhlFile
  | .file bytes _ _ => addLeaf st pkg bytes
  | .dirNil => st
  | .dirCons name child rest => addFile (addFile st (pkg ++ "/" ++ name) child) pkg rest

/-- `_WhlFile.add_string` (wheelmaker.py lines 161-169) on bytes. -/
def addString (st : WhlFile) (filename : String) (contents : List Nat) : WhlFile :=
  { st with
    entries := st.entries ++ [{ zipinfo st filename with content := contents }]
    record := st.record ++
      [(filename, serializeDigest (sha256Bytes contents), natStr contents.length)] }

/-- `add_string` on text: `contents.encode("utf-8", "surrogateescape")`. -/
def addStringS (st : WhlFile) (filename : String) (contents : String) : WhlFile :=
  addString st filename (strBytes contents)

def recordPath (st : WhlFile) : String :=
  distinfoPath st "RECORD"

/-- The serialized rows of the RECORD file: every accumulated triple plus
the blank self-reference row, each path `lstrip`ped of `/`
(wheelmaker.py lines 199-203). -/
def recordRows (st : WhlFile) : List (String × String × String) :=
  (st.record ++ [(recordPath st, "", "")]).map fun r => (lstripSlashes r.1, r.2.1, r.2.2)

/-- `b"%s,%s,%s\n" % (filename, digest, size)`. -/
def recordLine (r : String × String × String) : List Nat :=
  strBytes r.1 ++ strBytes "," ++ strBytes r.2.1 ++ strBytes "," ++ strBytes r.2.2 ++
    strBytes "\n"

def recordContents (st : WhlFile) : List Nat :=
  ((recordRows st).map recordLine).flatten

/-- `_WhlFile.add_recordfile` (wheelmaker.py lines 196-207). -/
def addRecordfile (st : WhlFile) : WhlFile :=
  addString st (recordPath st) (recordContents st)

/-- The operations a caller can perform on an open `_WhlFile`. -/
inductive WOp where
  | file (pkg : String) (node : FsNode)
  | str (name : String) (contents : List Nat)
  | recordfile

def applyOp (st : WhlFile) : WOp → WhlFile
  | .file pkg node => addFile st pkg node
  | .str name contents => addString st name contents
  | .recordfile => addRecordfile st

def runOps (st : WhlFile) (ops : List WOp) : WhlFile :=
  ops.foldl applyOp st

/-! ## `escape_filename_segment` (wheelmaker.py lines 38-45)

`re.sub(r"[^\w\d.]+", "_", segment, re.UNICODE)` passes `re.UNICODE`
(whose numeric value is 32) positionally into `re.sub`'s `count`
parameter, so only the first 32 runs are replaced.  Kept characters are
`\w ∪ \d ∪ {.}` (ASCII granularity: Python's `\w` additionally matches
non-ASCII word characters). -/

def isKeptChar (c : Char) : Bool :=
  c.isAlphanum || c = '_' || c = '.'

/-- `re.sub(class⁺, "_", cs, count)`: replace up to `count` maximal runs of
non-kept characters, left to right; fuel is the character count. -/
def replaceRunsAux : Nat → Nat → List Char → List Char
  | 0, _, cs => cs
  | _ + 1, 0, cs => cs
  | f + 1, count + 1, cs =>
    match cs with
    | [] => []
    | c :: rest =>
      if isKeptChar c then c :: replaceRunsAux f (count + 1) rest
      else '_' :: replaceRunsAux f count (rest.dropWhile fun d => !isKeptChar d)

def escape_filename_segment (segment : String) : String :=
  ⟨replaceRunsAux segment.data.length 32 segment.data⟩

/-! ## `normalize_package_name` / `escape_filename_distribution_name`
(wheelmaker.py lines 48-61) -/

/-- One pass of `re.sub(r"[-_.]+", "-", name)`: every maximal run of
`-`/`_`/`.` becomes a single dash. -/
def collapseDash : List Char → List Char
  | [] => []
  | c :: cs =>
    if isSepChar c then
      match collapseDash cs with
      | '-' :: tl => '-' :: tl
      | t => '-' :: t
    else c :: collapseDash cs

/-- `re.sub(r"[-_.]+", "-", name).lower()`. -/
def normalize_package_name (name : String) : String :=
  ⟨asciiLowerAll (collapseDash name.data)⟩

/-- `normalize_package_name(name).replace("-", "_")`. -/
def escape_filename_distribution_name (name : String) : String :=
  ⟨(normalize_package_name name).data.map fun c => if c = '-' then '_' else c⟩

/-! ## `WheelMaker.add_metadata` (wheelmaker.py lines 311-321)

`re.sub("^Name: .*$", "Name: %s" % name, metadata, flags=re.MULTILINE)`:
every line that starts with `Name: ` is replaced whole (up to, not
including, its terminating newline) by `Name: ` followed by the
caller-supplied name.  `re.sub` has no `count` argument here, so every
matching line is rewritten. -/

def nameTag : List Char :=
  ['N', 'a', 'm', 'e', ':', ' ']

def rewriteNameChars (name : String) (cs : List Char) : List Char :=
  match h : cs.dropWhile (· ≠ '\n') with
  | [] =>
    if nameTag.isPrefixOf cs then nameTag ++ name.data
    else cs.takeWhile (· ≠ '\n')
  | _ :: rest =>
    (if nameTag.isPrefixOf cs then nameTag ++ name.data
     else cs.takeWhile (· ≠ '\n')) ++ '\n' :: rewriteNameChars name rest
termination_by cs.length
decreasing_by
  have hle := (List.dropWhile_sublist (l := cs) (fun c => decide ¬c = '\n')).length_le
  rw [h] at hle
  simp only [List.length_cons] at hle
  omega

def rewriteNameLines (name metadata : String) : String :=
  ⟨rewriteNameChars name metadata.data⟩

/-- The METADATA member text assembled by `add_metadata`: the `Name:`
rewrite, then `"Version: %s\n\n" % version`, then the description (or
`UNKNOWN` when it is `None` or empty — Python truthiness), then a final
newline. -/
def add_metadata_text (metadata name : String) (description : Option String)
    (version : String) : String :=
  let m1 := rewriteNameLines name metadata
  let m2 := m1 ++ "Version: " ++ version ++ "\n\n"
  let m3 := m2 ++ match description with
    | some d => if d = "" then "UNKNOWN" else d
    | none => "UNKNOWN"
  m3 ++ "\n"

/-- Split on `'\n'` (Python's line structure of a MULTILINE regex). -/
def splitLines (cs : List Char) : List (List Char) :=
  match h : cs.dropWhile (· ≠ '\n') with
  | [] => [cs.takeWhile (· ≠ '\n')]
  | _ :: rest => cs.takeWhile (· ≠ '\n') :: splitLines rest
termination_by cs.length
decreasing_by
  have hle := (List.dropWhile_sublist (l := cs) (fun c => decide ¬c = '\n')).length_le
  rw [h] at hle
  simp only [List.length_cons] at hle
  omega

/-! ## `get_files_to_package` (wheelmaker.py lines 328-336) and the content
phase of `main` -/

/-- One Python dict assignment `files[k] = v`: updating an existing key
keeps its position, a new key is appended. -/
def dictInsert (d : List (String × String)) (k v : String) : List (String × String) :=
  if d.any fun p => p.1 == k then d.map fun p => if p.1 == k then (k, v) else p
  else d ++ [(k, v)]

/-- `get_files_to_package`: build the `files` dict from the input pairs. -/
def get_files_to_package (input_files : List (String × String)) :
    List (String × String) :=
  input_files.foldl (fun d kv => dictInsert d kv.1 kv.2) []

/-- `sorted(files.items())` — lexicographic on the pairs. -/
def pairLe (a b : String × String) : Bool :=
  a.1 < b.1 || (a.1 == b.1 && a.2 ≤ b.2)

def sortedFiles (input : List (String × String)) : List (String × String) :=
  (get_files_to_package input).mergeSort pairLe

/-- The content-file phase of `main` (wheelmaker.py lines 491-528): dedup
through the dict, sort, then one `add_file` per item, reading each
`real_path` from the filesystem `fs`. -/
def mainPackage (input : List (String × String)) (fs : String → FsNode)
    (st0 : WhlFile) : WhlFile :=
  (sortedFiles input).foldl (fun st kv => addFile st kv.1 (fs kv.2)) st0

/-! ## Event trace of `main`'s archive lifecycle (wheelmaker.py lines
471-576)

`main` runs inside `with WheelMaker(...) as maker:`; the body's steps in
program order, with `WheelMaker.__exit__` closing the archive on both the
normal and the failing path. -/

inductive Event where
  | openArchive
  | addFileE (pkg : String)
  | addWheelfile
  | readDescription
  | readMetadata
  | addMetadataE
  | addEntryPoints
  | addExtra (name : String)
  | addRecordfileE
  | writeNameFile
  | closeArchive
deriving DecidableEq, Repr

structure MainConfig where
  files : List String
  hasDescription : Bool
  hasEntryPoints : Bool
  extras : List String
deriving Repr

/-- All body steps before the final name-file write, in program order. -/
def mainSteps (cfg : MainConfig) : List Event :=
  [Event.openArchive] ++ cfg.files.map Event.addFileE ++ [Event.addWheelfile] ++
    (if cfg.hasDescription then [Event.readDescription] else []) ++
    [Event.readMetadata, Event.addMetadataE] ++
    (if cfg.hasEntryPoints then [Event.addEntryPoints] else []) ++
    cfg.extras.map Event.addExtra ++ [Event.addRecordfileE]

/-- The with-statement body: `arguments.name_file.write_text(...)` is its
last statement (wheelmaker.py line 576), still inside the `with`. -/
def mainBody (cfg : MainConfig) : List Event :=
  mainSteps cfg ++ [Event.writeNameFile]

/-- The executed trace: a run failing at body step `k` executes the first
`k` steps; either way `__exit__` closes the archive afterwards. -/
def mainTrace (cfg : MainConfig) (failAt : Option Nat) : List Event :=
  match failAt with
  | none => mainBody cfg ++ [Event.closeArchive]
  | some k => (mainBody cfg).take k ++ [Event.closeArchive]

theorem pep440Parse_zero_plus {v : String} (h : sanitize v ≠ "") :
    ∃ w, pep440Parse ("0+" ++ sanitize v) = some w := by
  have hne : (sanitize v).data ≠ [] := fun hd => h (String.ext (by simp [hd]))
  have hdata : ("0+" ++ sanitize v).data = '0' :: '+' :: (sanitize v).data := by
    rw [String.data_append]
    rfl
  have hgood : ∀ c ∈ ('0' :: '+' :: (sanitize v).data), GoodChar c := by
    intro c hc
    rcases List.mem_cons.mp hc with he | hc2
    · subst he; exact ⟨rfl, rfl⟩
    rcases List.mem_cons.mp hc2 with he | hc3
    · subst he; exact ⟨rfl, rfl⟩
    · exact sanitize_good v c hc3
  obtain ⟨segs, hsegs⟩ := @parseLocalSegs_accepts (sanitize v).data.length
    (sanitize v).data hne
    (sanitize_all v) (sanitize_head v) (sanitize_last v) (sanitize_noAdj v) (by omega)
  have hv : vStrip ('0' :: '+' :: (sanitize v).data) = '0' :: '+' :: (sanitize v).data := rfl
  have hnum : parseNum ('0' :: '+' :: (sanitize v).data) = some (0, '+' :: (sanitize v).data) := rfl
  have hep : parseEpoch ('0' :: '+' :: (sanitize v).data) =
      (0, '0' :: '+' :: (sanitize v).data) := rfl
  have hdot : parseDotNums ('+' :: (sanitize v).data).length ('+' :: (sanitize v).data) =
      ([], '+' :: (sanitize v).data) :=
    parseDotNums_stop (by intro r heq; simp at heq)
  have hloc : parseLocalGroup ('+' :: (sanitize v).data) = (some segs, []) := by
    have hstep : parseLocalGroup ('+' :: (sanitize v).data) =
        match parseLocalSegs (sanitize v).data.length (sanitize v).data with
        | some (sgs, r) => (some sgs, r)
        | none => (none, '+' :: (sanitize v).data) := rfl
    rw [hstep, hsegs]
  have hcore : parseCore ('0' :: '+' :: (sanitize v).data) =
      some ⟨0, [0], none, none, none, some segs⟩ := by
    unfold parseCore
    simp only [hv, hep, hnum, hdot, parsePreGroup_skip_plus, parsePostGroup_skip_plus,
      parseDevGroup_skip_plus, hloc, List.isEmpty_nil, if_true]
  refine ⟨⟨0, [0], none, none, none, some segs⟩, ?_⟩
  unfold pep440Parse
  rw [hdata]
  rw [wsStrip_eq_self fun c hc => (hgood c hc).1]
  rw [show asciiLowerAll ('0' :: '+' :: (sanitize v).data) = '0' :: '+' :: (sanitize v).data
    from map_fix fun c hc => (hgood c hc).2]
  exact hcore

theorem normalize_shape {v r : String} (h : normalize_pep440 v = some r) :
    ∃ w : PVersion, w.Wf ∧ r = renderStr w := by
  unfold normalize_pep440 at h
  split at h
  · rename_i w h1
    exact ⟨w, pep440Parse_wf h1, (Option.some.inj h).symm⟩
  · rename_i h1
    simp only [] at h
    split at h
    · rename_i w h2
      exact ⟨w, pep440Parse_wf h2, (Option.some.inj h).symm⟩
    · rename_i h2
      split at h
      · rename_i w h3
        exact ⟨w, pep440Parse_wf h3, (Option.some.inj h).symm⟩
      · exact absurd h (by simp)

theorem normalize_pep440_idem {v r : String} (h : normalize_pep440 v = some r) :
    normalize_pep440 r = some r := by
  obtain ⟨w, hwf, hr⟩ := normalize_shape h
  subst hr
  unfold normalize_pep440
  rw [pep440Parse_render hwf]

theorem normalize_pep440_total {v : String} (h : sanitize v ≠ "") :
    ∃ r, normalize_pep440 v = some r ∧ (pep440Parse r).isSome = true := by
  unfold normalize_pep440
  split
  · rename_i w h1
    exact ⟨renderStr w, rfl, by rw [pep440Parse_render (pep440Parse_wf h1)]; rfl⟩
  · rename_i h1
    simp only [] 
    split
    · rename_i w h2
      exact ⟨renderStr w, rfl, by rw [pep440Parse_render (pep440Parse_wf h2)]; rfl⟩
    · rename_i h2
      obtain ⟨w, h3⟩ := pep440Parse_zero_plus h
      rw [h3]
      exact ⟨renderStr w, rfl, by rw [pep440Parse_render (pep440Parse_wf h3)]; rfl⟩

theorem foldl_append_length (chunks : List (List Nat)) :
    ∀ acc : List Nat,
      chunks.foldl (fun a b => a + b.length) acc.length =
        (chunks.foldl (fun a b => a ++ b) acc).length := by
  induction chunks with
  | nil => intro acc; rfl
  | cons c cs ih =>
    intro acc
    have h1 : acc.length + c.length = (acc ++ c).length := by
      simp
    simp only [List.foldl_cons, h1, ih (acc ++ c)]

/-- The deterministic header fields of one member. -/
def fixedHeaderB (e : ZEntry) : Bool :=
  decide (e.dateTime = zipEpoch) && decide (e.createSystem = 3) &&
    decide (e.externalAttr = 511 <<< 16)

def HeadersOk (st : WhlFile) : Prop :=
  st.entries.all fixedHeaderB = true

theorem headersOk_addLeaf {st : WhlFile} (h : HeadersOk st) (pkg : String)
    (bytes : List Nat) : HeadersOk (addLeaf st pkg bytes) := by
  unfold HeadersOk addLeaf at *
  simp only [List.all_append, h, Bool.true_and]
  simp [fixedHeaderB, zipinfo]

theorem headersOk_addString {st : WhlFile} (h : HeadersOk st) (name : String)
    (contents : List Nat) : HeadersOk (addString st name contents) := by
  unfold HeadersOk addString at *
  simp only [List.all_append, h, Bool.true_and]
  simp [fixedHeaderB, zipinfo]

theorem headersOk_addFile {st : WhlFile} (h : HeadersOk st) (pkg : String)
    (node : FsNode) : HeadersOk (addFile st pkg node) := by
  induction node generalizing st pkg with
  | file bytes mtime mode => exact headersOk_addLeaf h pkg bytes
  | dirNil => exact h
  | dirCons name child rest ihc ihr =>
    exact ihr (ihc h (pkg ++ "/" ++ name)) pkg

theorem headersOk_applyOp {st : WhlFile} (h : HeadersOk st) (op : WOp) :
    HeadersOk (applyOp st op) := by
  cases op with
  | file pkg node => exact headersOk_addFile h pkg node
  | str name contents => exact headersOk_addString h name contents
  | recordfile => exact headersOk_addString h _ _

theorem headersOk_runOps {st : WhlFile} (h : HeadersOk st) (ops : List WOp) :
    HeadersOk (runOps st ops) := by
  induction ops generalizing st with
  | nil => exact h
  | cons op rest ih => exact ih (headersOk_applyOp h op)

/-- Record/entry correspondence: digests and sizes in the record are exactly
those of the bytes written for the matching member. -/
def DigestsOk (st : WhlFile) : Prop :=
  st.record.map (fun r => (r.2.1, r.2.2)) =
    st.entries.map fun e => (serializeDigest (sha256Bytes e.content), natStr e.content.length)

theorem digestsOk_addLeaf {st : WhlFile} (h : DigestsOk st) (pkg : String)
    (bytes : List Nat) : DigestsOk (addLeaf st pkg bytes) := by
  unfold DigestsOk addLeaf at *
  simp only [List.map_append, h, List.map_cons, List.map_nil]
  congr 2
  have hsz := foldl_append_length (chunkBytes bytes) []
  simp only [List.length_nil] at hsz
  rw [natStr, natStr, hsz]

theorem digestsOk_addString {st : WhlFile} (h : DigestsOk st) (name : String)
    (contents : List Nat) : DigestsOk (addString st name contents) := by
  unfold DigestsOk addString at *
  simp only [List.map_append, h, List.map_cons, List.map_nil]

theorem digestsOk_addFile {st : WhlFile} (h : DigestsOk st) (pkg : String)
    (node : FsNode) : DigestsOk (addFile st pkg node) := by
  induction node generalizing st pkg with
  | file bytes mtime mode => exact digestsOk_addLeaf h pkg bytes
  | dirNil => exact h
  | dirCons name child rest ihc ihr =>
    exact ihr (ihc h (pkg ++ "/" ++ name)) pkg

theorem digestsOk_runOps {st : WhlFile} (h : DigestsOk st) (ops : List WOp) :
    DigestsOk (runOps st ops) := by
  induction ops generalizing st with
  | nil => exact h
  | cons op rest ih =>
    refine ih ?_
    cases op with
    | file pkg node => exact digestsOk_addFile h pkg node
    | str name contents => exact digestsOk_addString h name contents
    | recordfile => exact digestsOk_addString h _ _

/-- No leading slash, as a Bool on names. -/
def noLeadSlash (s : String) : Bool :=
  match s.data with
  | '/' :: _ => false
  | _ => true

theorem noLeadSlash_lstrip (s : String) : noLeadSlash (lstripSlashes s) = true := by
  unfold noLeadSlash lstripSlashes
  have h := dropWhile_head_not (fun c => decide (c = '/')) s.data
  cases hd : s.data.dropWhile (· = '/') with
  | nil => rfl
  | cons a t =>
    have := h a (by rw [hd]; rfl)
    simp only [decide_eq_false_iff_not] at this
    simp only []
    split
    · next heq =>
      injection heq with h1 h2
      exact absurd h1 this
    · rfl

def NamesOk (st : WhlFile) : Prop :=
  st.entries.all (fun e => noLeadSlash e.name) = true

theorem namesOk_addLeaf {st : WhlFile} (h : NamesOk st) (pkg : String)
    (bytes : List Nat) : NamesOk (addLeaf st pkg bytes) := by
  unfold NamesOk addLeaf at *
  simp only [List.all_append, h, Bool.true_and]
  simp [zipinfo, noLeadSlash_lstrip]

theorem namesOk_addString {st : WhlFile} (h : NamesOk st) (name : String)
    (contents : List Nat) : NamesOk (addString st name contents) := by
  unfold NamesOk addString at *
  simp only [List.all_append, h, Bool.true_and]
  simp [zipinfo, noLeadSlash_lstrip]

theorem namesOk_addFile {st : WhlFile} (h : NamesOk st) (pkg : String)
    (node : FsNode) : NamesOk (addFile st pkg node) := by
  induction node generalizing st pkg with
  | file bytes mtime mode => exact namesOk_addLeaf h pkg bytes
  | dirNil => exact h
  | dirCons name child rest ihc ihr =>
    exact ihr (ihc h (pkg ++ "/" ++ name)) pkg

theorem namesOk_runOps {st : WhlFile} (h : NamesOk st) (ops : List WOp) :
    NamesOk (runOps st ops) := by
  induction ops generalizing st with
  | nil => exact h
  | cons op rest ih =>
    refine ih ?_
    cases op with
    | file pkg node => exact namesOk_addFile h pkg node
    | str name contents => exact namesOk_addString h name contents
    | recordfile => exact namesOk_addString h _ _

theorem recordRows_noLeadSlash (st : WhlFile) :
    ((recordRows st).all fun r => noLeadSlash r.1) = true := by
  unfold recordRows
  rw [List.all_eq_true]
  intro r hr
  rw [List.mem_map] at hr
  obtain ⟨r0, _, heq⟩ := hr
  rw [← heq]
  exact noLeadSlash_lstrip r0.1

open Wheelmaker

theorem stripFirst_eq_find {ps : List String} {s p : String}
    (h : ps.find? (fun q => q.data.isPrefixOf s.data) = some p) :
    stripFirst ps s = ⟨s.data.drop p.data.length⟩ := by
  induction ps with
  | nil => simp at h
  | cons q t ih =>
    by_cases hq : q.data.isPrefixOf s.data = true
    · have hfind : (q :: t).find? (fun r => r.data.isPrefixOf s.data) = some q :=
        List.find?_cons_of_pos _ hq
      rw [hfind] at h
      have hqp : q = p := by simpa using h
      unfold stripFirst
      rw [if_pos hq, hqp]
    · have hfind : (q :: t).find? (fun r => r.data.isPrefixOf s.data) =
          t.find? (fun r => r.data.isPrefixOf s.data) :=
        List.find?_cons_of_neg _ (by simpa using hq)
      rw [hfind] at h
      unfold stripFirst
      rw [if_neg hq]
      exact ih h

theorem writeName_not_mem_steps (cfg : MainConfig) :
    Event.writeNameFile ∉ mainSteps cfg := by
  intro hmem
  unfold mainSteps at hmem
  cases hD : cfg.hasDescription <;> cases hE : cfg.hasEntryPoints <;>
    rw [hD, hE] at hmem <;> simp at hmem

theorem writeName_last (cfg : MainConfig) :
    ∃ pre, mainTrace cfg none = pre ++ [Event.writeNameFile, Event.closeArchive] ∧
      Event.writeNameFile ∉ pre := by
  refine ⟨mainSteps cfg, ?_, writeName_not_mem_steps cfg⟩
  unfold mainTrace mainBody
  simp

theorem writeName_not_in_failed (cfg : MainConfig) (k : Nat)
    (hk : k < (mainBody cfg).length) :
    Event.writeNameFile ∉ mainTrace cfg (some k) := by
  intro hmem
  unfold mainTrace at hmem
  rcases List.mem_append.mp hmem with h | h
  · have hk2 : k ≤ (mainSteps cfg).length := by
      unfold mainBody at hk
      simp only [List.length_append, List.length_singleton] at hk
      omega
    rw [mainBody, List.take_append_of_le_length hk2] at h
    exact writeName_not_mem_steps cfg (List.mem_of_mem_take h)
  · simp at h

-- dict lemmas
theorem dictInsert_find_self (d : List (String × String)) (k v : String) :
    (dictInsert d k v).find? (fun p => p.1 == k) = some (k, v) := by
  unfold dictInsert
  split
  · next hany =>
    induction d with
    | nil => simp at hany
    | cons p t ih =>
      by_cases hp : p.1 == k
      · simp only [List.map_cons, hp, if_true]
        exact List.find?_cons_of_pos _ (by simp)
      · have hany' : t.any (fun p => p.1 == k) = true := by
          simp only [List.any_cons, hp] at hany
          simpa using hany
        simp only [List.map_cons, hp, if_false]
        rw [List.find?_cons_of_neg _ (by simpa using hp)]
        exact ih hany'
  · next hany =>
    induction d with
    | nil => simp
    | cons p t ih =>
      have hp : (p.1 == k) = false := by
        by_contra hc
        exact hany (by
          rw [List.any_cons, Bool.or_eq_true]
          exact Or.inl (by simpa using hc))
      simp only [List.cons_append]
      rw [List.find?_cons_of_neg _ (by simp [hp])]
      refine ih ?_
      intro hc
      exact hany (by
        rw [List.any_cons, Bool.or_eq_true]
        exact Or.inr hc)

theorem mapUpd_find_other (d : List (String × String)) (k v k' : String)
    (hne : (k' == k) = false) :
    (d.map (fun p => if p.1 == k then (k, v) else p)).find? (fun p => p.1 == k') =
      d.find? (fun p => p.1 == k') := by
  have hkk : (k == k') = false := by
    cases hb : (k == k') with
    | false => rfl
    | true =>
      have : k = k' := by simpa using hb
      rw [← this] at hne
      simp at hne
  induction d with
  | nil => rfl
  | cons p t ih =>
    by_cases hp : (p.1 == k) = true
    · have hp1 : p.1 = k := by simpa using hp
      have h1 : ((if p.1 == k then (k, v) else p) :: (t.map (fun p => if p.1 == k then (k, v) else p))).find? (fun p => p.1 == k') = (t.map (fun p => if p.1 == k then (k, v) else p)).find? (fun p => p.1 == k') := by
        rw [if_pos hp]
        exact List.find?_cons_of_neg _ (by simpa using hkk)
      have h2 : (p :: t).find? (fun p => p.1 == k') = t.find? (fun p => p.1 == k') :=
        List.find?_cons_of_neg _ (by rw [hp1]; simpa using hkk)
      rw [List.map_cons, h1, h2, ih]
    · by_cases hpk : (p.1 == k') = true
      · have h1 : ((if p.1 == k then (k, v) else p) :: (t.map (fun p => if p.1 == k then (k, v) else p))).find? (fun p => p.1 == k') = some p := by
          rw [if_neg (by simpa using hp)]
          exact List.find?_cons_of_pos _ hpk
        have h2 : (p :: t).find? (fun p => p.1 == k') = some p :=
          List.find?_cons_of_pos _ hpk
        rw [List.map_cons, h1, h2]
      · have h1 : ((if p.1 == k then (k, v) else p) :: (t.map (fun p => if p.1 == k then (k, v) else p))).find? (fun p => p.1 == k') = (t.map (fun p => if p.1 == k then (k, v) else p)).find? (fun p => p.1 == k') := by
          rw [if_neg (by simpa using hp)]
          exact List.find?_cons_of_neg _ (by simpa using hpk)
        have h2 : (p :: t).find? (fun p => p.1 == k') = t.find? (fun p => p.1 == k') :=
          List.find?_cons_of_neg _ (by simpa using hpk)
        rw [List.map_cons, h1, h2, ih]

theorem dictInsert_find_other (d : List (String × String)) (k v k' : String)
    (hne : (k' == k) = false) :
    (dictInsert d k v).find? (fun p => p.1 == k') = d.find? (fun p => p.1 == k') := by
  have hkk : (k == k') = false := by
    cases hb : (k == k') with
    | false => rfl
    | true =>
      have : k = k' := by simpa using hb
      rw [← this] at hne
      simp at hne
  unfold dictInsert
  split
  · exact mapUpd_find_other d k v k' hne
  · rw [List.find?_append]
    cases hd : d.find? fun p => p.1 == k' with
    | some q => simp
    | none =>
      have h1 : ([(k, v)].find? fun p => p.1 == k') = none := by
        simp [hkk]
      simp [h1]

theorem gftp_find_last (input : List (String × String)) (k : String) :
    (get_files_to_package input).find? (fun p => p.1 == k) =
      input.reverse.find? (fun p => p.1 == k) := by
  induction input using List.reverseRecOn with
  | nil => rfl
  | append_singleton l x ih =>
    have hstep : get_files_to_package (l ++ [x]) =
        dictInsert (get_files_to_package l) x.1 x.2 := by
      unfold get_files_to_package
      rw [List.foldl_append]
      rfl
    rw [hstep, List.reverse_append]
    simp only [List.reverse_singleton, List.singleton_append]
    by_cases hk : (x.1 == k) = true
    · have hk1 : x.1 = k := by simpa using hk
      have h2 : (x :: l.reverse).find? (fun p => p.1 == k) = some x :=
        List.find?_cons_of_pos _ hk
      rw [h2, ← hk1]
      have h3 := dictInsert_find_self (get_files_to_package l) x.1 x.2
      rw [h3]
    · have h2 : (x :: l.reverse).find? (fun p => p.1 == k) = l.reverse.find? (fun p => p.1 == k) :=
        List.find?_cons_of_neg _ (by simpa using hk)
      rw [h2]
      rw [dictInsert_find_other _ _ _ _ (by
        cases hb : (k == x.1) with
        | false => rfl
        | true =>
          have hbe : k = x.1 := by simpa using hb
          rw [hbe] at hk
          simp at hk)]
      exact ih

theorem takeWhile_all {p : Char → Bool} {xs : List Char}
    (h : ∀ c ∈ xs, p c = true) : xs.takeWhile p = xs := by
  induction xs with
  | nil => rfl
  | cons a l ih =>
    rw [List.takeWhile_cons, if_pos (h a (by simp))]
    rw [ih fun c hc => h c (by simp [hc])]

theorem isPrefixOf_takeWhile_line (pat : List Char)
    (hpat : ∀ c ∈ pat, (c == '\n') = false) :
    ∀ cs : List Char,
      pat.isPrefixOf (cs.takeWhile (· ≠ '\n')) = pat.isPrefixOf cs := by
  induction pat with
  | nil => intro cs; simp [List.isPrefixOf]
  | cons p ps ih =>
    intro cs
    cases cs with
    | nil => rfl
    | cons c t =>
      by_cases hc : c = '\n'
      · subst hc
        rw [List.takeWhile_cons, if_neg (by simp)]
        have hp : (p == '\n') = false := hpat p (by simp)
        simp [List.isPrefixOf, hp]
      · rw [List.takeWhile_cons, if_pos (by simpa using hc)]
        simp only [List.isPrefixOf]
        rw [ih (fun d hd => hpat d (by simp [hd])) t]

theorem splitLines_eq_single (cs : List Char)
    (h : cs.dropWhile (· ≠ '\n') = []) :
    splitLines cs = [cs.takeWhile (· ≠ '\n')] := by
  rw [splitLines.eq_def]
  split
  · rfl
  · next d rest heq =>
    rw [h] at heq
    exact absurd heq (by simp)

theorem splitLines_eq_cons (cs rest : List Char) (d : Char)
    (h : cs.dropWhile (· ≠ '\n') = d :: rest) :
    splitLines cs = cs.takeWhile (· ≠ '\n') :: splitLines rest := by
  rw [splitLines.eq_def]
  split
  · next heq =>
    rw [h] at heq
    exact absurd heq (by simp)
  · next d2 r2 heq =>
    rw [h] at heq
    injection heq with h1 h2
    rw [h2]

theorem rewriteNameChars_eq_single (name : String) (cs : List Char)
    (h : cs.dropWhile (· ≠ '\n') = []) :
    rewriteNameChars name cs =
      if nameTag.isPrefixOf cs then nameTag ++ name.data
      else cs.takeWhile (· ≠ '\n') := by
  rw [rewriteNameChars.eq_def]
  split
  · rfl
  · next d rest heq =>
    rw [h] at heq
    exact absurd heq (by simp)

theorem rewriteNameChars_eq_cons (name : String) (cs rest : List Char) (d : Char)
    (h : cs.dropWhile (· ≠ '\n') = d :: rest) :
    rewriteNameChars name cs =
      (if nameTag.isPrefixOf cs then nameTag ++ name.data
       else cs.takeWhile (· ≠ '\n')) ++ '\n' :: rewriteNameChars name rest := by
  rw [rewriteNameChars.eq_def]
  split
  · next heq =>
    rw [h] at heq
    exact absurd heq (by simp)
  · next d2 r2 heq =>
    rw [h] at heq
    injection heq with h1 h2
    rw [h2]

theorem splitLines_prepend (A B : List Char)
    (hA : ∀ c ∈ A, (c == '\n') = false) :
    splitLines (A ++ '\n' :: B) = A :: splitLines B := by
  have hall : ∀ c ∈ A, (fun c => decide ¬c = '\n') c = true := by
    intro c hc
    have := hA c hc
    simp only [beq_iff_eq] at this
    simpa using this
  have hdrop : (A ++ '\n' :: B).dropWhile (· ≠ '\n') = '\n' :: B := by
    rw [dropWhile_append_all hall, List.dropWhile_cons, if_neg (by simp)]
  rw [splitLines_eq_cons _ B '\n' hdrop]
  congr 1
  rw [takeWhile_append_all hall, List.takeWhile_cons, if_neg (by simp),
    List.append_nil]

theorem nameTag_no_newline : ∀ c ∈ nameTag, (c == '\n') = false := by
  decide

theorem splitLines_rewriteNameChars (name : String)
    (hname : ∀ c ∈ name.data, (c == '\n') = false) :
    ∀ cs, splitLines (rewriteNameChars name cs) =
      (splitLines cs).map
        (fun l => if nameTag.isPrefixOf l then nameTag ++ name.data else l) := by
  suffices h : ∀ n cs, List.length cs = n →
      splitLines (rewriteNameChars name cs) =
        (splitLines cs).map
          (fun l => if nameTag.isPrefixOf l then nameTag ++ name.data else l) by
    intro cs
    exact h cs.length cs rfl
  intro n
  induction n using Nat.strong_induction_on with
  | _ n ih =>
  intro cs hn
  cases hdrop : cs.dropWhile (· ≠ '\n') with
  | nil =>
    have hallp : ∀ c ∈ cs, (fun c => decide ¬c = '\n') c = true := by
      intro c hc
      exact List.dropWhile_eq_nil_iff.mp hdrop c hc
    have htake : cs.takeWhile (· ≠ '\n') = cs := takeWhile_all hallp
    rw [rewriteNameChars_eq_single name cs hdrop, splitLines_eq_single cs hdrop,
      List.map_cons, List.map_nil, htake]
    by_cases hpre : nameTag.isPrefixOf cs = true
    · rw [if_pos hpre]
      have hall2 : ∀ c ∈ nameTag ++ name.data,
          (fun c => decide ¬c = '\n') c = true := by
        intro c hc
        rcases List.mem_append.mp hc with h | h
        · have := nameTag_no_newline c h
          simp only [beq_iff_eq] at this
          simpa using this
        · have := hname c h
          simp only [beq_iff_eq] at this
          simpa using this
      have hdrop2 : (nameTag ++ name.data).dropWhile (· ≠ '\n') = [] :=
        List.dropWhile_eq_nil_iff.mpr hall2
      rw [splitLines_eq_single _ hdrop2, takeWhile_all hall2]
    · rw [if_neg hpre, splitLines_eq_single cs hdrop, htake]
  | cons d rest =>
    have hd : d = '\n' := by
      have hhn := dropWhile_head_not (· ≠ '\n') cs
      rw [hdrop] at hhn
      have h2 := hhn d rfl
      simpa using h2
    subst hd
    have hlen : rest.length < n := by
      have hle := (List.dropWhile_sublist (l := cs) (fun c => decide ¬c = '\n')).length_le
      rw [hdrop] at hle
      simp only [List.length_cons] at hle
      omega
    rw [rewriteNameChars_eq_cons name cs rest '\n' hdrop,
      splitLines_eq_cons cs rest '\n' hdrop]
    have hAnn : ∀ c ∈ (if nameTag.isPrefixOf cs then nameTag ++ name.data
        else cs.takeWhile (· ≠ '\n')), (c == '\n') = false := by
      intro c hc
      by_cases hpre : nameTag.isPrefixOf cs = true
      · rw [if_pos hpre] at hc
        rcases List.mem_append.mp hc with h | h
        · exact nameTag_no_newline c h
        · exact hname c h
      · rw [if_neg hpre] at hc
        have h2 := List.mem_takeWhile_imp hc
        simpa using h2
    rw [splitLines_prepend _ _ hAnn, List.map_cons]
    congr 1
    · rw [← isPrefixOf_takeWhile_line nameTag nameTag_no_newline cs]
    · exact ih rest.length hlen rest rfl

def fsC1 : String → FsNode :=
  fun p => if p = "x" then FsNode.file [104] 0 0 else FsNode.file [105] 0 0

theorem mapUpd_keys (d : List (String × String)) (k v : String) :
    ((d.map fun p => if p.1 == k then (k, v) else p).map Prod.fst) =
      d.map Prod.fst := by
  induction d with
  | nil => rfl
  | cons p t ih =>
    by_cases hp : (p.1 == k) = true
    · have hp1 : p.1 = k := by simpa using hp
      simp only [List.map_cons, if_pos hp, ih]
      rw [hp1]
    · simp only [List.map_cons, if_neg hp, ih]

theorem not_mem_keys_of_no_match {d : List (String × String)} {k : String}
    (h : (d.any fun p => p.1 == k) = false) : k ∉ d.map Prod.fst := by
  intro hmem
  rw [List.mem_map] at hmem
  obtain ⟨p, hp, he⟩ := hmem
  have h2 : (d.any fun p => p.1 == k) = true :=
    List.any_eq_true.mpr ⟨p, hp, by simp [he]⟩
  rw [h] at h2
  exact absurd h2 (by simp)

theorem gftp_keys_nodup (input : List (String × String)) :
    ((get_files_to_package input).map Prod.fst).Nodup := by
  induction input using List.reverseRecOn with
  | nil => simp [get_files_to_package]
  | append_singleton l x ih =>
    have hstep : get_files_to_package (l ++ [x]) =
        dictInsert (get_files_to_package l) x.1 x.2 := by
      unfold get_files_to_package
      rw [List.foldl_append]
      rfl
    rw [hstep]
    unfold dictInsert
    split
    · rw [mapUpd_keys]
      exact ih
    · next hany =>
      rw [List.map_append]
      refine List.Nodup.append ih (by simp) ?_
      intro a ha hb
      simp only [List.map_cons, List.map_nil, List.mem_singleton] at hb
      subst hb
      have hfalse : ((get_files_to_package l).any fun p => p.1 == x.1) = false := by
        cases hb : (get_files_to_package l).any fun p => p.1 == x.1 with
        | false => rfl
        | true => exact absurd hb hany
      exact not_mem_keys_of_no_match hfalse ha

/-- The claim's own description of `escape_filename_segment`, stepped on the
same fuel: every maximal run of non-kept characters becomes one `_`,
with no bound on the number of runs. -/
def specReplaceRuns : Nat → List Char → List Char
  | 0, cs => cs
  | f + 1, cs =>
    match cs with
    | [] => []
    | c :: rest =>
      if isKeptChar c then c :: specReplaceRuns f rest
      else '_' :: specReplaceRuns f (rest.dropWhile fun d => !isKeptChar d)

def specEscapeSegment (segment : String) : String :=
  ⟨specReplaceRuns segment.data.length segment.data⟩

/-! ## The claims -/

def cfgC2 : MainConfig :=
  ⟨["f.py"], false, false, []⟩

/-- C1 counterexample: the claim predicts that input `[("a","x"),("a","y")]`
(two entries with archivePath `"a"`) yields two archive members and two
manifest rows; the content phase of `main` produces exactly one of each,
because `get_files_to_package` builds a dict keyed by archivePath. -/
theorem C1_no_duplicate_members :
    (mainPackage [("a", "x"), ("a", "y")] fsC1
      (mkWhlFile "pkg-1.0.dist-info" [])).entries.length = 1 ∧
    (mainPackage [("a", "x"), ("a", "y")] fsC1
      (mkWhlFile "pkg-1.0.dist-info" [])).record.length = 1 := by
  have hsort : sortedFiles [("a", "x"), ("a", "y")] = [("a", "y")] := by
    unfold sortedFiles
    rw [show get_files_to_package [("a", "x"), ("a", "y")] = [("a", "y")] from by decide]
    simp
  constructor
  · unfold mainPackage
    rw [hsort]
    decide
  · unfold mainPackage
    rw [hsort]
    decide

/-- C1 (amended): duplicate archivePath entries ARE deduplicated —
`get_files_to_package` is a Python dict build, so each archivePath maps to
the last sourcePath paired with it in input order and the dict's keys are
unique; concretely, input `[("a","x"),("a","y")]` produces one member named
`"a"` (from source `"y"`) and one record row for `"a"`. -/
theorem C1_duplicate_archive_paths_are_deduplicated :
    (∀ (input : List (String × String)) (k : String),
        (get_files_to_package input).find? (fun p => p.1 == k) =
          input.reverse.find? (fun p => p.1 == k) ∧
        ((get_files_to_package input).map Prod.fst).Nodup) ∧
    (mainPackage [("a", "x"), ("a", "y")] fsC1
      (mkWhlFile "pkg-1.0.dist-info" [])).entries.map ZEntry.name = ["a"] ∧
    ((mainPackage [("a", "x"), ("a", "y")] fsC1
      (mkWhlFile "pkg-1.0.dist-info" [])).record.map fun r => r.1) = ["a"] := by
  have hsort : sortedFiles [("a", "x"), ("a", "y")] = [("a", "y")] := by
    unfold sortedFiles
    rw [show get_files_to_package [("a", "x"), ("a", "y")] = [("a", "y")] from by decide]
    simp
  refine ⟨fun input k => ⟨gftp_find_last input k, gftp_keys_nodup input⟩, ?_, ?_⟩
  · unfold mainPackage
    rw [hsort]
    decide
  · unfold mainPackage
    rw [hsort]
    decide

/-- C2 counterexample: in the completed run of a concrete configuration the
name file is written BEFORE the archive close (it is the last statement of
the `with` body), not after it as the claim states. -/
theorem C2_write_precedes_close :
    mainTrace cfgC2 none =
      [Event.openArchive, Event.addFileE "f.py", Event.addWheelfile,
        Event.readMetadata, Event.addMetadataE, Event.addRecordfileE,
        Event.writeNameFile, Event.closeArchive] ∧
    (mainTrace cfgC2 none).indexOf Event.writeNameFile <
      (mainTrace cfgC2 none).indexOf Event.closeArchive := by
  exact ⟨by decide, by decide⟩

/-- C2 (amended): the name file is written exactly once, as the LAST step of
the `with` body — immediately before `__exit__`'s close, not after it — and
a run failing at any earlier body step never writes the name file. -/
theorem C2_name_file_last_and_absent_on_failure :
    ∀ cfg : MainConfig,
      (∃ pre, mainTrace cfg none = pre ++ [Event.writeNameFile, Event.closeArchive] ∧
        Event.writeNameFile ∉ pre) ∧
      (∀ k, k < (mainBody cfg).length → Event.writeNameFile ∉ mainTrace cfg (some k)) :=
  fun cfg => ⟨writeName_last cfg, fun k hk => writeName_not_in_failed cfg k hk⟩

/-- C2 witness: the failure clause of the amended theorem at a concrete
configuration and failing step. -/
theorem C2_name_file_witness :
    3 < (mainBody cfgC2).length ∧ Event.writeNameFile ∉ mainTrace cfgC2 (some 3) :=
  ⟨by decide, (C2_name_file_last_and_absent_on_failure cfgC2).2 3 (by decide)⟩

/-- C3 counterexample: on the empty string — an input with no alphanumeric
characters — `normalize_pep440` does NOT return a value: every parse in the
fallback chain fails, and the final `Version("0+" + sanitized)` is invalid
because the sanitized tail is empty, so the exception escapes. -/
theorem C3_empty_input_fails : normalize_pep440 "" = none := by
  decide

/-- C3 (amended): `normalize_pep440 v` returns a spec-valid version string
whenever sanitizing `v` leaves at least one character (which holds for every
`v` with an alphanumeric character); it fails exactly when the sanitized
tail is empty. -/
theorem C3_normalize_total_on_nonempty_sanitize (v : String)
    (h : sanitize v ≠ "") :
    ∃ r, normalize_pep440 v = some r ∧ (pep440Parse r).isSome = true :=
  normalize_pep440_total h

/-- C3 witness: the amended theorem at the unstamped placeholder input. -/
theorem C3_normalize_witness :
    sanitize "{BUILD_TIMESTAMP}" ≠ "" ∧
    ∃ r, normalize_pep440 "{BUILD_TIMESTAMP}" = some r ∧
      (pep440Parse r).isSome = true :=
  ⟨by decide, C3_normalize_total_on_nonempty_sanitize "{BUILD_TIMESTAMP}" (by decide)⟩

/-- C4 counterexample: with raw name `"My.Pkg"` and a metadata text holding
two `Name:` lines, BOTH lines are rewritten and the substituted value is the
raw name — not the normalized `"my-pkg"` on the first line only that the
claim describes. -/
theorem C4_all_lines_get_raw_name :
    rewriteNameLines "My.Pkg" "Name: old\nFoo: bar\nName: old2" =
      "Name: My.Pkg\nFoo: bar\nName: My.Pkg" ∧
    normalize_package_name "My.Pkg" = "my-pkg" ∧
    rewriteNameLines "My.Pkg" "Name: old\nFoo: bar\nName: old2" ≠
      "Name: my-pkg\nFoo: bar\nName: old2" := by
  have h1 : rewriteNameChars "My.Pkg" "Name: old\nFoo: bar\nName: old2".data =
      (nameTag ++ "My.Pkg".data) ++
        '\n' :: rewriteNameChars "My.Pkg" "Foo: bar\nName: old2".data := by
    rw [rewriteNameChars_eq_cons "My.Pkg" _ ("Foo: bar\nName: old2".data) '\n' (by rfl),
      if_pos (by decide)]
  have h2 : rewriteNameChars "My.Pkg" "Foo: bar\nName: old2".data =
      "Foo: bar".data ++ '\n' :: rewriteNameChars "My.Pkg" "Name: old2".data := by
    rw [rewriteNameChars_eq_cons "My.Pkg" _ ("Name: old2".data) '\n' (by rfl),
      if_neg (by decide)]
    rfl
  have h3 : rewriteNameChars "My.Pkg" "Name: old2".data = nameTag ++ "My.Pkg".data := by
    rw [rewriteNameChars_eq_single "My.Pkg" _ (by rfl), if_pos (by decide)]
  have hfull : rewriteNameLines "My.Pkg" "Name: old\nFoo: bar\nName: old2" =
      "Name: My.Pkg\nFoo: bar\nName: My.Pkg" := by
    unfold rewriteNameLines
    rw [h1, h2, h3]
    rfl
  refine ⟨hfull, by decide, ?_⟩
  rw [hfull]
  decide

/-- C4 (amended): for every raw name without a newline and every metadata
text, the `Name:` rewrite of `add_metadata` replaces EVERY line-anchored
`Name: ` line (the regex is MULTILINE and `re.sub` replaces all matches)
with `Name: ` followed by the caller-supplied raw name — `main` passes the
unnormalized name — and leaves all other lines unchanged. -/
theorem C4_every_name_line_rewritten_to_raw_name (name : String)
    (hname : ∀ c ∈ name.data, (c == '\n') = false) (metadata : String) :
    splitLines (rewriteNameLines name metadata).data =
      (splitLines metadata.data).map
        (fun l => if nameTag.isPrefixOf l then nameTag ++ name.data else l) :=
  splitLines_rewriteNameChars name hname metadata.data

/-- C4 witness: the amended theorem at a concrete name and metadata text. -/
theorem C4_rewrite_witness :
    (∀ c ∈ "My.Pkg".data, (c == '\n') = false) ∧
    splitLines (rewriteNameLines "My.Pkg" "Name: a\nB: c").data =
      (splitLines "Name: a\nB: c".data).map
        (fun l => if nameTag.isPrefixOf l then nameTag ++ "My.Pkg".data else l) :=
  ⟨by decide, C4_every_name_line_rewritten_to_raw_name "My.Pkg" (by decide) "Name: a\nB: c"⟩

/-- C5: the strip loop of `arcname_from` removes the FIRST matching prefix
in strip-list order, once, from the front of the arcname; and concretely,
with strip prefixes `["a/b", "a"]` and archive path `a/b/c.txt` the stored
member name and the manifest path are both `c.txt` (the stripped `/c.txt`
is `lstrip`ped of `/` by `_zipinfo` and by the RECORD serializer). -/
theorem C5_first_matching_strip_wins :
    (∀ (ps : List String) (s p : String),
        ps.find? (fun q => q.data.isPrefixOf s.data) = some p →
          stripFirst ps s = ⟨s.data.drop p.data.length⟩) ∧
    (runOps (mkWhlFile "pkg-1.0.dist-info" ["a/b", "a"])
      [WOp.file "a/b/c.txt" (FsNode.file [104] 7 33)]).entries.map ZEntry.name =
      ["c.txt"] ∧
    ((recordRows (runOps (mkWhlFile "pkg-1.0.dist-info" ["a/b", "a"])
      [WOp.file "a/b/c.txt" (FsNode.file [104] 7 33)])).map fun r => r.1) =
      ["c.txt", "pkg-1.0.dist-info/RECORD"] :=
  ⟨fun _ _ _ h => stripFirst_eq_find h, by decide, by decide⟩

/-- C5 witness: the strip clause at the claim's own concrete instance. -/
theorem C5_strip_witness :
    ["a/b", "a"].find? (fun q => q.data.isPrefixOf "a/b/c.txt".data) = some "a/b" ∧
    stripFirst ["a/b", "a"] "a/b/c.txt" = ⟨"a/b/c.txt".data.drop "a/b".data.length⟩ :=
  ⟨by decide, C5_first_matching_strip_wins.1 ["a/b", "a"] "a/b/c.txt" "a/b" (by decide)⟩

/-- C6: every archive member header — file-sourced or synthesized — carries
the fixed timestamp `(1980,1,1,0,0,0)`, permissions `0o777 << 16` and
create-system 3 (unix), whatever operations were run and whatever mtime or
mode the source nodes had. -/
theorem C6_fixed_member_headers :
    ∀ (d : String) (sp : List String) (ops : List WOp),
      ((runOps (mkWhlFile d sp) ops).entries.all fun e =>
        decide (e.dateTime = zipEpoch) && decide (e.createSystem = 3) &&
          decide (e.externalAttr = 511 <<< 16)) = true :=
  fun d sp ops => headersOk_runOps (show HeadersOk (mkWhlFile d sp) from rfl) ops

/-- C7: after any operations, the digest column of the record equals
`sha256=` + url-safe base64 (padding stripped) of the SHA-256 of exactly
the bytes written for the matching member, and the size column equals the
count of those bytes. -/
theorem C7_record_digests_match_written_bytes :
    ∀ (d : String) (sp : List String) (ops : List WOp),
      ((runOps (mkWhlFile d sp) ops).record.map fun r => (r.2.1, r.2.2)) =
        (runOps (mkWhlFile d sp) ops).entries.map fun e =>
          (serializeDigest (sha256Bytes e.content), natStr e.content.length) :=
  fun d sp ops => digestsOk_runOps (show DigestsOk (mkWhlFile d sp) from rfl) ops

/-- C8: `normalize_pep440` is idempotent on its domain: whenever it returns
a value, running it again on that value returns the same value. -/
theorem C8_normalize_idempotent (v r : String)
    (h : normalize_pep440 v = some r) : normalize_pep440 r = some r :=
  normalize_pep440_idem h

/-- C8 witness: idempotence at a concrete pre-release version string. -/
theorem C8_idempotent_witness :
    normalize_pep440 "1.0-beta" = some "1.0b0" ∧
    normalize_pep440 "1.0b0" = some "1.0b0" :=
  ⟨by decide, C8_normalize_idempotent "1.0-beta" "1.0b0" (by decide)⟩

/-- C9: code bug — `re.sub(r"[^\w\d.]+", "_", segment, re.UNICODE)` passes
`re.UNICODE` (value 32) positionally as `count`, so only the first 32 runs
of non-kept characters are replaced; on a segment with 33 runs the last run
survives, diverging from the claimed replacement of every run (the
spec-side `specEscapeSegment` replaces all of them). -/
theorem C9_escape_segment_stops_after_32_runs :
    escape_filename_segment ⟨(List.replicate 33 ['-', 'a']).flatten⟩ =
      ⟨(List.replicate 32 ['_', 'a']).flatten ++ ['-', 'a']⟩ ∧
    specEscapeSegment ⟨(List.replicate 33 ['-', 'a']).flatten⟩ =
      ⟨(List.replicate 33 ['_', 'a']).flatten⟩ ∧
    escape_filename_segment ⟨(List.replicate 33 ['-', 'a']).flatten⟩ ≠
      specEscapeSegment ⟨(List.replicate 33 ['-', 'a']).flatten⟩ :=
  ⟨by decide, by decide, by decide⟩

/-- C10: every zip entry name and every RECORD row path has leading `/`
characters stripped, whatever operations were run: prefix stripping may
produce an arcname starting with `/`, but neither the stored member name
nor its manifest line starts with `/`. -/
theorem C10_no_leading_slash_in_names :
    ∀ (d : String) (sp : List String) (ops : List WOp),
      ((runOps (mkWhlFile d sp) ops).entries.all fun e => noLeadSlash e.name) = true ∧
      ((recordRows (runOps (mkWhlFile d sp) ops)).all fun r => noLeadSlash r.1) = true :=
  fun d sp ops => ⟨namesOk_runOps (show NamesOk (mkWhlFile d sp) from rfl) ops,
    recordRows_noLeadSlash _⟩

end Wheelmaker
